import Mathlib

/-!
Verification of the Senado election engine.

This file gives a shallow embedding of the election-counting core of the
repository:

* `program/base.py` — `Candidate`, `Ballot` (`ChamberBallot`,
  `SuperiorCouncilBallot`), `Tally`, `RoundResult`;
* `src/elections.py` (the v2.0, most complete variant, which the
  specification follows) — the `Round` strategy family and the `Election`
  controller (`tiebreaker`, `persistent_tie_rounds`, the per-seat body of
  `run`).

Modelling conventions:

* Candidates are compared by object identity in Python; we model them as
  `Nat` handles (arena indices), as the design notes themselves suggest.
* Python `dict`s are insertion-ordered association lists without duplicate
  keys; assignment to an existing key keeps its position, assignment to a
  fresh key appends.  `Tally.items` is modelled accordingly.
* Python's `sorted(..., key=lambda x: x[1], reverse=True)` is a stable
  descending sort; we model it with a stable insertion sort `sortDesc`.
* Counts and vote totals are Python `int`s, modelled as `Int`.
* Percentages are modelled as exact rationals (Python uses floats; the
  statements here are about the algorithm, not float rounding).
* A Python exception (ZeroDivisionError in `RoundResult.__init__`,
  IndexError on a list access, TypeError from `reduce` over an empty list,
  AssertionError in `tiebreaker`) is modelled as `none` of an `Option`
  result, and exception propagation as the `Option` monad.
* The presiding interface (`IOInterface.get_presidential_choices`) is an
  external collaborator, modelled as a function parameter `Itf`.
-/

/-- Candidate handles.  Python compares `Candidate` objects by identity; we
use an arena index. -/
abbrev Candidate := Nat

/-- The interface collaborator: `get_presidential_choices(included,
max_winners)`. -/
abbrev Itf := List Candidate → Nat → List Candidate

/-- `Ballot` from `program/base.py`: an id, an ordered list of votes and the
category maximum (`-1` on the abstract base class, `4` for Chamber, `8` for
Superior Council ballots). -/
structure Ballot where
  id : Int
  votes : List Candidate
  max_votes : Int
deriving DecidableEq, Repr

/-- `ChamberBallot.__init__`: `max_votes = 4`. -/
def ChamberBallot (id : Int) (votes : List Candidate) : Ballot :=
  { id := id, votes := votes, max_votes := 4 }

/-- `SuperiorCouncilBallot.__init__`: `max_votes = 8`. -/
def SuperiorCouncilBallot (id : Int) (votes : List Candidate) : Ballot :=
  { id := id, votes := votes, max_votes := 8 }

/-- `isinstance(x, Candidate)` on an element of a (well-typed) ballot's vote
list: always true, since the embedding types votes as `Candidate`. -/
def isinstanceCandidate (_ : Candidate) : Bool := true

/-- `Ballot.is_valid` from `program/base.py`:

    return len(self.votes) <= self.max_votes and reduce(
        lambda x, y: x and y, [isinstance(x, Candidate) for x in self.votes])

Python's `and` short-circuits, so when the length check fails the result is
`False` without evaluating the `reduce`.  When it succeeds, `reduce` with no
initial value over the empty list raises `TypeError` — modelled as `none`. -/
def Ballot.is_valid (b : Ballot) : Option Bool :=
  if (b.votes.length : Int) ≤ b.max_votes then
    match b.votes.map isinstanceCandidate with
    | [] => none
    | x :: xs => some (xs.foldl and x)
  else
    some false

/-- `Tally` from `program/base.py`: a dict from `Candidate` to `int`. -/
structure Tally where
  items : List (Candidate × Int)
deriving DecidableEq, Repr

/-- Python dict update `items[c] = items.get(c, 0) + n`: the first entry with
key `c` is bumped in place; a fresh key is appended at the end. -/
def dictIncr (c : Candidate) (n : Int) : List (Candidate × Int) → List (Candidate × Int)
  | [] => [(c, n)]
  | (k, v) :: rest => if k = c then (k, v + n) :: rest else (k, v) :: dictIncr c n rest

/-- Python dict assignment `items[c] = n`: the first entry with key `c` is
overwritten in place; a fresh key is appended at the end. -/
def dictSet (c : Candidate) (n : Int) : List (Candidate × Int) → List (Candidate × Int)
  | [] => [(c, n)]
  | (k, v) :: rest => if k = c then (c, n) :: rest else (k, v) :: dictSet c n rest

/-- `Tally.add_vote_to_candidate`:
`self.items[candidate] = self.items.get(candidate, 0) + 1`. -/
def Tally.add_vote_to_candidate (t : Tally) (c : Candidate) : Tally :=
  ⟨dictIncr c 1 t.items⟩

/-- `Tally.merge`: for every key of `tally`, add its count into `self`. -/
def Tally.merge (t other : Tally) : Tally :=
  ⟨other.items.foldl (fun acc p => dictIncr p.1 p.2 acc) t.items⟩

/-- `Tally.is_empty`: `len(self.items) == 0`. -/
def Tally.is_empty (t : Tally) : Bool :=
  t.items.length = 0

/-- The dict comprehension `{candidate: 0 for candidate in included}` used
to seed tallies: insertion order follows `included`, duplicates collapse. -/
def Tally.seedZeros (included : List Candidate) : Tally :=
  ⟨included.foldl (fun acc c => dictSet c 0 acc) []⟩

/-- `self.items.get(c, 0)`: first binding of `c`, defaulting to `0`. -/
def lookupCount (items : List (Candidate × Int)) (c : Candidate) : Int :=
  ((items.find? (fun p => p.1 == c)).map (fun p => p.2)).getD 0

/-- Count read on a `Tally`. -/
def Tally.get (t : Tally) (c : Candidate) : Int :=
  lookupCount t.items c

/-- `sum(tally.items.values())`. -/
def Tally.sumCounts (t : Tally) : Int :=
  (t.items.map (fun p => p.2)).sum

/-- Insert an entry into a list already sorted by descending count, after
every entry with a greater-or-equal count (stability). -/
def insertDesc (x : Candidate × Int) : List (Candidate × Int) → List (Candidate × Int)
  | [] => [x]
  | y :: ys => if x.2 ≤ y.2 then y :: insertDesc x ys else x :: y :: ys

/-- Stable descending sort by count: the model of
`sorted(output, key=lambda x: x[1], reverse=True)`. -/
def sortDesc : List (Candidate × Int) → List (Candidate × Int)
  | [] => []
  | x :: xs => insertDesc x (sortDesc xs)

/-- `Tally.to_ordered_list`. -/
def Tally.to_ordered_list (t : Tally) : List (Candidate × Int) :=
  sortDesc t.items

/-- `self.first = [x[0] for x in self.res if x[1] == self.res[0][1]]`.
The comprehension never evaluates `res[0]` when `res` is empty. -/
def firstGroup (res : List (Candidate × Int)) : List Candidate :=
  match res with
  | [] => []
  | r0 :: _ => (res.filter (fun x => x.2 == r0.2)).map (fun x => x.1)

/-- `self.second = [x[0] for x in self.res[len(self.first):] if x[1] ==
self.res[len(self.first)][1]]`.  Again, the index `res[len(first)]` is only
evaluated when the slice is non-empty. -/
def secondGroup (res : List (Candidate × Int)) : List Candidate :=
  match res.drop (firstGroup res).length with
  | [] => []
  | s0 :: rest => ((s0 :: rest).filter (fun x => x.2 == s0.2)).map (fun x => x.1)

/-- `RoundResult` from `program/base.py`. -/
structure RoundResult where
  votes : Int
  res : List (Candidate × Int)
  first : List Candidate
  second : List Candidate
  percentages : List ℚ
deriving DecidableEq, Repr

/-- `RoundResult.__init__(votes, tally)`.  The percentage computation
`[x[1]/self.votes for x in self.res]` raises `ZeroDivisionError` exactly
when `votes == 0` and the ordered list is non-empty; this is the only
failure of the constructor, modelled as `none`. -/
def RoundResult.make (votes : Int) (tally : Tally) : Option RoundResult :=
  let res := tally.to_ordered_list
  if votes = 0 ∧ res ≠ [] then
    none
  else
    some { votes := votes
           res := res
           first := firstGroup res
           second := secondGroup res
           percentages := res.map (fun x => (x.2 : ℚ) / (votes : ℚ)) }

/-- `RoundResult.over_half(n)`: `sum(self.percentages[0:n]) > 0.5`. -/
def RoundResult.over_half (r : RoundResult) (n : Nat) : Bool :=
  (1 : ℚ) / 2 < (r.percentages.take n).sum

/-- `RoundResult.sum_percentages(n)`. -/
def RoundResult.sum_percentages (r : RoundResult) (n : Nat) : ℚ :=
  (r.percentages.take n).sum

/-- `PreferentialExclusiveRound.preferred`: the first vote on the ballot not
in `excluded`, else `None`. -/
def exclusivePreferred (excluded : List Candidate) (b : Ballot) : Option Candidate :=
  b.votes.find? (fun v => !(excluded.contains v))

/-- `PreferentialInclusiveRound.preferred`: the first vote on the ballot that
is in `included`, else `None`. -/
def inclusivePreferred (included : List Candidate) (b : Ballot) : Option Candidate :=
  b.votes.find? (fun v => included.contains v)

/-- The loop body of `PreferentialRound.result`: `votes` starts at
`len(ballots)` and is decremented for each abstaining ballot, while each
non-abstaining ballot's preferred candidate is tallied. -/
def prefLoop (pref : Ballot → Option Candidate) :
    List Ballot → Tally × Int → Tally × Int
  | [], st => st
  | b :: bs, (t, v) =>
    match pref b with
    | none => prefLoop pref bs (t, v - 1)
    | some c => prefLoop pref bs (t.add_vote_to_candidate c, v)

/-- The final (tally, votes) state of a preferential exclusive round. -/
def PreferentialExclusiveRound.state (ballots : List Ballot)
    (excluded : List Candidate) : Tally × Int :=
  prefLoop (exclusivePreferred excluded) ballots (⟨[]⟩, (ballots.length : Int))

/-- `PreferentialExclusiveRound(ballots, excluded).result()`: unseeded tally,
`votes = len(ballots)` minus abstentions. -/
def PreferentialExclusiveRound.result (ballots : List Ballot)
    (excluded : List Candidate) : Option RoundResult :=
  RoundResult.make (PreferentialExclusiveRound.state ballots excluded).2
    (PreferentialExclusiveRound.state ballots excluded).1

/-- The final (tally, votes) state of a preferential inclusive round. -/
def PreferentialInclusiveRound.state (ballots : List Ballot)
    (included : List Candidate) : Tally × Int :=
  prefLoop (inclusivePreferred included) ballots
    (Tally.seedZeros included, (ballots.length : Int))

/-- `PreferentialInclusiveRound(ballots, included).result()`: tally seeded
with a zero count for every included candidate. -/
def PreferentialInclusiveRound.result (ballots : List Ballot)
    (included : List Candidate) : Option RoundResult :=
  RoundResult.make (PreferentialInclusiveRound.state ballots included).2
    (PreferentialInclusiveRound.state ballots included).1

/-- The loop body of `RankedRound.result` (v2.0): skip empty per-ballot
tallies, otherwise merge them and add their total weight to `votes`. -/
def rankedLoop (bt : Ballot → Tally) : List Ballot → Tally × Int → Tally × Int
  | [], st => st
  | b :: bs, (t, v) =>
    let btal := bt b
    if btal.is_empty then rankedLoop bt bs (t, v)
    else rankedLoop bt bs (t.merge btal, v + btal.sumCounts)

/-- `RankedRound.result` (v2.0): the tally is seeded with zeros for
`included` when it is set, `votes` starts at `0`. -/
def RankedRound.result (included : Option (List Candidate)) (bt : Ballot → Tally)
    (ballots : List Ballot) : Option RoundResult :=
  let t0 : Tally := match included with
    | none => ⟨[]⟩
    | some incl => Tally.seedZeros incl
  let st := rankedLoop bt ballots (t0, 0)
  RoundResult.make st.2 st.1

/-- `ConstantRankedRound.ballot_tally`:
`Tally({k: 1 for k in (set(ballot.votes) & set(self.included))})`.
Python's set intersection iterates in an unspecified (hash) order; the model
fixes first-occurrence order on the ballot, which is one admissible order. -/
def constantBallotTally (included : List Candidate) (b : Ballot) : Tally :=
  ⟨(b.votes.dedup.filter (fun v => included.contains v)).map (fun c => (c, 1))⟩

/-- `ConstantRankedRound(ballots, included).result()`. -/
def ConstantRankedRound.result (ballots : List Ballot)
    (included : List Candidate) : Option RoundResult :=
  RankedRound.result (some included) (constantBallotTally included) ballots

/-- The loop of `BordaRankedRound.ballot_tally` (v2.0), with the running
index made explicit:

    for i in range(len(ballot.votes)):
        if ballot.votes[i] in self.included:
            dict[ballot.votes[i]] = 8 - i
-/
def bordaFill (included : List Candidate) :
    Nat → List Candidate → List (Candidate × Int) → List (Candidate × Int)
  | _, [], acc => acc
  | i, v :: vs, acc =>
    bordaFill included (i + 1) vs
      (if included.contains v then dictSet v (8 - (i : Int)) acc else acc)

/-- `BordaRankedRound.ballot_tally` (v2.0): a candidate at 0-indexed
position `i` who is in `included` scores `8 - i`; others are skipped. -/
def bordaBallotTally (included : List Candidate) (b : Ballot) : Tally :=
  ⟨bordaFill included 0 b.votes []⟩

/-- `BordaRankedRound(ballots, included).result()`. -/
def BordaRankedRound.result (ballots : List Ballot)
    (included : List Candidate) : Option RoundResult :=
  RankedRound.result (some included) (bordaBallotTally included) ballots

/-- `FirstPastThePostRound.ballot_tally`: with `self.round = round_n - 1`,

    if (len(ballot.votes) > self.round+1) and (ballot.votes[self.round] in self.included):
        return Tally({ballot.votes[self.round]: 1})
    return Tally()

The short-circuiting `and` means the index is only evaluated under the
length guard, so `getD` with an arbitrary default is faithful. -/
def fptpBallotTally (included : List Candidate) (round_n : Nat) (b : Ballot) : Tally :=
  let r := round_n - 1
  if b.votes.length > r + 1 && included.contains (b.votes.getD r 0) then
    ⟨[(b.votes.getD r 0, 1)]⟩
  else
    ⟨[]⟩

/-- `PresidentialRound(ballots, included, max_w).result(interface)` (v2.0):
ask the interface for the choices, seed the tally with zeros over
`included`, give each chosen candidate one vote; `votes = len(choice)`. -/
def PresidentialRound.result (itf : Itf) (_ballots : List Ballot)
    (included : List Candidate) (max_w : Nat) : Option RoundResult :=
  let choice := itf included max_w
  let tally := choice.foldl Tally.add_vote_to_candidate (Tally.seedZeros included)
  RoundResult.make (choice.length : Int) tally

/-- `Election.persistent_tie_rounds(candidates, lvl, max_winners,
presidential_round)` (v2.0): approval round, then Borda round, then — only
if enabled — a presidential round over the Borda round's `first`; each stage
returns as soon as `len(first) <= max_winners`. -/
def Election.persistent_tie_rounds (ballots : List Ballot) (itf : Itf)
    (candidates : List Candidate) (max_winners : Nat)
    (presidential_round : Bool) : Option RoundResult := do
  let round ← ConstantRankedRound.result ballots candidates
  if round.first.length ≤ max_winners then
    return round
  let round ← BordaRankedRound.result ballots candidates
  if round.first.length ≤ max_winners then
    return round
  if presidential_round then
    PresidentialRound.result itf ballots round.first max_winners
  else
    return round

/-- The `while` loop of `Election.tiebreaker`, with explicit fuel: keep
re-running an inclusive round over the current candidate set; on a
persistent tie (the round's `first` equals the candidate list) break into
the persistent-tie cascade. -/
def Election.tiebreakerLoop (ballots : List Ballot) (itf : Itf) :
    Nat → List Candidate → RoundResult → Nat → Option RoundResult
  | 0, _, _, _ => none
  | fuel + 1, candidates, round, max_winners =>
    if round.first.length ≤ max_winners then
      some round
    else if candidates == round.first then
      Election.persistent_tie_rounds ballots itf candidates max_winners true
    else do
      let candidates := round.first
      let round ← PreferentialInclusiveRound.result ballots candidates
      Election.tiebreakerLoop ballots itf fuel candidates round max_winners

/-- `Election.tiebreaker(candidates, lvl, max_winners)` (v2.0).  The
`assert len(candidates) > max_winners` is modelled as a `none` failure. -/
def Election.tiebreaker (ballots : List Ballot) (itf : Itf) (fuel : Nat)
    (candidates : List Candidate) (max_winners : Nat) : Option RoundResult :=
  if candidates.length ≤ max_winners then
    none
  else do
    let round ← PreferentialInclusiveRound.result ballots candidates
    Election.tiebreakerLoop ballots itf fuel candidates round max_winners

/-- `list(set(self.candidates) - set(elected))`: the candidate pool for the
presidential fallback.  Python's set order is unspecified; the model keeps
first-occurrence order. -/
def Election.pool (candidates elected : List Candidate) : List Candidate :=
  (candidates.filter (fun c => !(elected.contains c))).dedup

/-- The tail of every seat iteration (`## Second round` in `Election.run`):
an inclusive round over the finalists, escalated to the persistent-tie
cascade (presidential fallback enabled) on a tie; the winner is appended to
`elected`.  The final log line indexes `round.first[0]`, so an empty winner
set aborts the run (modelled as `none`). -/
def Election.secondRoundStep (ballots : List Ballot) (itf : Itf)
    (elected finalists : List Candidate) : Option (List Candidate) :=
  (PreferentialInclusiveRound.result ballots finalists).bind (fun round =>
    (if round.first.length > 1 then
        Election.persistent_tie_rounds ballots itf round.first 1 true
      else some round).bind (fun round =>
      if round.first.length = 0 then none
      else some (elected ++ round.first)))

/-- The body of one iteration of the seat loop of `Election.run` (v2.0),
after the round-1 result has been computed.  Log lines that index into a
possibly-empty list (`round.first[0]`, `round.second[0]`, `winners[1]`) are
modelled as `none` when the index is out of range. -/
def Election.seatBody (ballots : List Ballot) (candidates : List Candidate)
    (itf : Itf) (fuel : Nat) (elected : List Candidate)
    (first_round : RoundResult) : Option (List Candidate) :=
  let winners := first_round.first
  -- No more ballots left to count: presidential decision over the pool
  if winners.length = 0 then
    (PresidentialRound.result itf ballots (Election.pool candidates elected) 1).bind
      (fun round =>
        if round.first.length = 0 then none
        else some (elected ++ round.first))
  -- Winner in 1st round with absolute majority @3
  else if first_round.over_half 1 then
    some (elected ++ winners)
  else
    -- More than two winners in 1st round @4.1
    (if winners.length > 2 then
        (Election.tiebreaker ballots itf fuel winners 2).map (fun r => (r, r.first))
      else
        some (first_round, winners)).bind (fun rw =>
    let round := rw.1
    let winners := rw.2
    -- One winner after 1st round @4.2
    if winners.length = 1 then
      if first_round.over_half 2 then
        if round.second.length > 1 then
          (Election.tiebreaker ballots itf fuel round.second 1).bind (fun r =>
            Election.secondRoundStep ballots itf elected (winners ++ r.first))
        else if round.second.length = 0 then none
        else Election.secondRoundStep ballots itf elected (winners ++ round.second)
      else
        (PreferentialExclusiveRound.result ballots (elected ++ winners)).bind (fun r =>
        (if r.first.length > 1 then Election.tiebreaker ballots itf fuel r.first 1
          else some r).bind (fun r =>
          Election.secondRoundStep ballots itf elected (winners ++ r.first)))
    -- Two winners after 1st round @4.3 (the log indexes winners[1])
    else if winners.length < 2 then none
    else if first_round.over_half 2 then
      Election.secondRoundStep ballots itf elected winners
    else if !(first_round.over_half 3) then
      (PreferentialInclusiveRound.result ballots winners).bind (fun r =>
      (if r.first.length > 1 then Election.tiebreaker ballots itf fuel r.first 1
        else some r).bind (fun r =>
      (PreferentialExclusiveRound.result ballots (elected ++ r.first)).bind (fun r2 =>
      (if r2.first.length > 1 then Election.tiebreaker ballots itf fuel r2.first 1
        else some r2).bind (fun r2 =>
        Election.secondRoundStep ballots itf elected (r.first ++ r2.first)))))
    else
      (PreferentialExclusiveRound.result ballots (elected ++ winners)).bind (fun r =>
      (if r.first.length > 1 then Election.tiebreaker ballots itf fuel r.first 1
        else some r).bind (fun r =>
      (PreferentialInclusiveRound.result ballots (winners ++ r.first)).bind (fun sp =>
        if sp.first.length = 1 then some (elected ++ sp.first)
        else
          (Election.persistent_tie_rounds ballots itf sp.first 1 false).bind (fun pt =>
            if pt.first.length = 1 then some (elected ++ pt.first)
            else Election.secondRoundStep ballots itf elected winners)))))

/-- One iteration of the seat loop of `Election.run`: round 1 is a
preferential exclusive round with the current `elected` list as its
exclusion set, followed by the decision tree. -/
def Election.runSeat (ballots : List Ballot) (candidates : List Candidate)
    (itf : Itf) (fuel : Nat) (elected : List Candidate) : Option (List Candidate) :=
  (PreferentialExclusiveRound.result ballots elected).bind
    (Election.seatBody ballots candidates itf fuel elected)

/-- The seat loop of `Election.run`: seats are processed in order, each
threading the updated `elected` accumulator to the next. -/
def Election.runSeats (ballots : List Ballot) (candidates : List Candidate)
    (itf : Itf) (fuel : Nat) : Nat → List Candidate → Option (List Candidate)
  | 0, elected => some elected
  | n + 1, elected =>
    (Election.runSeat ballots candidates itf fuel elected).bind
      (Election.runSeats ballots candidates itf fuel n)

/-- The boundary contract of the presiding collaborator (§6): its choices
are distinct candidates drawn from the offered subset, and whenever the
request is satisfiable (a duplicate-free pool at least as large as the
request) it returns exactly the requested number. -/
def Precond (itf : Itf) : Prop :=
  ∀ incl k,
    (∀ c ∈ itf incl k, c ∈ incl) ∧ (itf incl k).Nodup ∧
      (incl.Nodup → 0 < k → k ≤ incl.length → (itf incl k).length = k)

/-- A canonical presiding collaborator: pick the first `k` distinct
candidates of the pool. -/
def takeItf : Itf := fun incl k => incl.dedup.take k

/-! ### Basic lemmas about the sort and the dict operations -/

theorem insertDesc_perm (x : Candidate × Int) (l : List (Candidate × Int)) :
    (insertDesc x l).Perm (x :: l) := by
  induction l with
  | nil => simp [insertDesc]
  | cons y ys ih =>
    by_cases h : x.2 ≤ y.2
    · simp only [insertDesc, if_pos h]
      exact (ih.cons y).trans (List.Perm.swap x y ys)
    · simp [insertDesc, if_neg h]

theorem sortDesc_perm (l : List (Candidate × Int)) : (sortDesc l).Perm l := by
  induction l with
  | nil => simp [sortDesc]
  | cons x xs ih => exact (insertDesc_perm x (sortDesc xs)).trans (ih.cons x)

theorem sortDesc_length (l : List (Candidate × Int)) :
    (sortDesc l).length = l.length :=
  (sortDesc_perm l).length_eq

theorem sortDesc_mem {p : Candidate × Int} {l : List (Candidate × Int)} :
    p ∈ sortDesc l ↔ p ∈ l :=
  (sortDesc_perm l).mem_iff

/-- The sort is descending: every element of the result is bounded by every
element that precedes it. -/
theorem insertDesc_pairwise {x : Candidate × Int} {l : List (Candidate × Int)}
    (h : l.Pairwise (fun a b => b.2 ≤ a.2)) :
    (insertDesc x l).Pairwise (fun a b => b.2 ≤ a.2) := by
  induction l with
  | nil => simp [insertDesc]
  | cons y ys ih =>
    rcases List.pairwise_cons.mp h with ⟨hy, hys⟩
    by_cases hle : x.2 ≤ y.2
    · simp only [insertDesc, if_pos hle]
      refine List.pairwise_cons.mpr ⟨?_, ih hys⟩
      intro a ha
      rcases List.mem_cons.mp ((insertDesc_perm x ys).mem_iff.mp ha) with h1 | h1
      · simpa [h1] using hle
      · exact hy a h1
    · simp only [insertDesc, if_neg hle]
      refine List.pairwise_cons.mpr ⟨?_, h⟩
      intro a ha
      rcases List.mem_cons.mp ha with h1 | h1
      · subst h1
        omega
      · exact le_trans (hy a h1) (by omega)

theorem sortDesc_pairwise (l : List (Candidate × Int)) :
    (sortDesc l).Pairwise (fun a b => b.2 ≤ a.2) := by
  induction l with
  | nil => simp [sortDesc]
  | cons x xs ih => exact insertDesc_pairwise ih

/-- The head of the sorted list carries a maximal count. -/
theorem sortDesc_head_max {l : List (Candidate × Int)} {r0 : Candidate × Int}
    {rest : List (Candidate × Int)} (h : sortDesc l = r0 :: rest) :
    ∀ p ∈ sortDesc l, p.2 ≤ r0.2 := by
  intro p hp
  have hpw := sortDesc_pairwise l
  rw [h] at hpw hp
  rcases List.mem_cons.mp hp with h1 | h1
  · simp [h1]
  · exact (List.pairwise_cons.mp hpw).1 p h1

theorem lookupCount_nil (c : Candidate) : lookupCount [] c = 0 := rfl

theorem lookupCount_cons (k : Candidate) (v : Int) (rest : List (Candidate × Int))
    (c : Candidate) :
    lookupCount ((k, v) :: rest) c = if k = c then v else lookupCount rest c := by
  by_cases h : k = c
  · simp [lookupCount, List.find?, h]
  · simp only [lookupCount, List.find?]
    have : ((k, v).1 == c) = false := by simpa using h
    simp [this, h, lookupCount]

theorem lookupCount_dictIncr (c : Candidate) (n : Int)
    (l : List (Candidate × Int)) (x : Candidate) :
    lookupCount (dictIncr c n l) x
      = lookupCount l x + (if x = c then n else 0) := by
  induction l with
  | nil =>
    by_cases h : x = c
    · subst h
      simp [dictIncr, lookupCount_cons, lookupCount_nil]
    · have h2 : ¬ c = x := fun hc => h hc.symm
      simp [dictIncr, lookupCount_cons, lookupCount_nil, h, h2]
  | cons p rest ih =>
    obtain ⟨k, v⟩ := p
    by_cases hk : k = c
    · subst hk
      by_cases hx : x = k
      · subst hx
        simp [dictIncr, lookupCount_cons]
      · have hx2 : ¬ k = x := fun hc => hx hc.symm
        simp [dictIncr, lookupCount_cons, hx, hx2]
    · by_cases hx : k = x
      · have hxc : ¬ x = c := fun h => hk (hx.trans h)
        simp [dictIncr, if_neg hk, lookupCount_cons, hx, hxc]
      · simp [dictIncr, if_neg hk, lookupCount_cons, hx, ih]

theorem lookupCount_dictSet (c : Candidate) (n : Int)
    (l : List (Candidate × Int)) (x : Candidate) :
    lookupCount (dictSet c n l) x
      = if x = c then n else lookupCount l x := by
  induction l with
  | nil =>
    by_cases h : x = c
    · subst h
      simp [dictSet, lookupCount_cons, lookupCount_nil]
    · have h2 : ¬ c = x := fun hc => h hc.symm
      simp [dictSet, lookupCount_cons, lookupCount_nil, h, h2]
  | cons p rest ih =>
    obtain ⟨k, v⟩ := p
    by_cases hk : k = c
    · subst hk
      by_cases hx : x = k
      · subst hx
        simp [dictSet, lookupCount_cons]
      · have hx2 : ¬ k = x := fun hc => hx hc.symm
        simp [dictSet, lookupCount_cons, hx, hx2]
    · by_cases hx : k = x
      · have hxc : ¬ x = c := fun h => hk (hx.trans h)
        simp [dictSet, if_neg hk, lookupCount_cons, hx, hxc]
      · simp [dictSet, if_neg hk, lookupCount_cons, hx, ih]

theorem keys_dictIncr (c : Candidate) (n : Int) (l : List (Candidate × Int))
    (x : Candidate) :
    (x ∈ (dictIncr c n l).map Prod.fst) ↔ (x ∈ l.map Prod.fst ∨ x = c) := by
  induction l with
  | nil => simp [dictIncr, eq_comm]
  | cons p rest ih =>
    obtain ⟨k, v⟩ := p
    by_cases hk : k = c
    · subst hk
      simp [dictIncr]
      tauto
    · simp [dictIncr, if_neg hk, ih]
      tauto

theorem keys_dictSet (c : Candidate) (n : Int) (l : List (Candidate × Int))
    (x : Candidate) :
    (x ∈ (dictSet c n l).map Prod.fst) ↔ (x ∈ l.map Prod.fst ∨ x = c) := by
  induction l with
  | nil => simp [dictSet, eq_comm]
  | cons p rest ih =>
    obtain ⟨k, v⟩ := p
    by_cases hk : k = c
    · subst hk
      simp [dictSet]
      tauto
    · simp [dictSet, if_neg hk, ih]
      tauto

theorem keysNodup_dictIncr (c : Candidate) (n : Int)
    {l : List (Candidate × Int)} (h : (l.map Prod.fst).Nodup) :
    ((dictIncr c n l).map Prod.fst).Nodup := by
  induction l with
  | nil => simp [dictIncr]
  | cons p rest ih =>
    obtain ⟨k, v⟩ := p
    simp only [List.map_cons, List.nodup_cons] at h
    by_cases hk : k = c
    · subst hk
      simpa [dictIncr] using h
    · simp only [dictIncr, if_neg hk, List.map_cons, List.nodup_cons]
      refine ⟨?_, ih h.2⟩
      intro hmem
      rcases (keys_dictIncr c n rest k).mp hmem with h1 | h1
      · exact h.1 h1
      · exact hk h1

theorem keysNodup_dictSet (c : Candidate) (n : Int)
    {l : List (Candidate × Int)} (h : (l.map Prod.fst).Nodup) :
    ((dictSet c n l).map Prod.fst).Nodup := by
  induction l with
  | nil => simp [dictSet]
  | cons p rest ih =>
    obtain ⟨k, v⟩ := p
    simp only [List.map_cons, List.nodup_cons] at h
    by_cases hk : k = c
    · subst hk
      simpa [dictSet] using h
    · simp only [dictSet, if_neg hk, List.map_cons, List.nodup_cons]
      refine ⟨?_, ih h.2⟩
      intro hmem
      rcases (keys_dictSet c n rest k).mp hmem with h1 | h1
      · exact h.1 h1
      · exact hk h1

theorem sum_dictIncr (c : Candidate) (n : Int) (l : List (Candidate × Int)) :
    ((dictIncr c n l).map (fun p => p.2)).sum = (l.map (fun p => p.2)).sum + n := by
  induction l with
  | nil => simp [dictIncr]
  | cons p rest ih =>
    obtain ⟨k, v⟩ := p
    by_cases hk : k = c
    · subst hk
      simp [dictIncr]
      ring
    · simp [dictIncr, if_neg hk, ih]
      ring

/-- An entry of a duplicate-free dict carries the count `lookupCount`
reads. -/
theorem entry_eq_lookup {l : List (Candidate × Int)} (h : (l.map Prod.fst).Nodup)
    {p : Candidate × Int} (hp : p ∈ l) : p.2 = lookupCount l p.1 := by
  induction l with
  | nil => cases hp
  | cons q rest ih =>
    obtain ⟨k, v⟩ := q
    simp only [List.map_cons, List.nodup_cons] at h
    rcases List.mem_cons.mp hp with h1 | h1
    · subst h1
      simp [lookupCount_cons]
    · have hk : ¬ k = p.1 := by
        intro he
        exact h.1 (he ▸ (List.mem_map_of_mem Prod.fst h1))
      rw [lookupCount_cons, if_neg hk]
      exact ih h.2 h1

/-- Every key of a dict has its `lookupCount` binding among the entries. -/
theorem lookup_entry_mem {l : List (Candidate × Int)} {k : Candidate}
    (h : k ∈ l.map Prod.fst) : (k, lookupCount l k) ∈ l := by
  induction l with
  | nil => cases h
  | cons q rest ih =>
    obtain ⟨k', v⟩ := q
    by_cases hk : k' = k
    · subst hk
      simp [lookupCount_cons]
    · rw [lookupCount_cons, if_neg hk]
      simp only [List.map_cons, List.mem_cons] at h
      rcases h with h1 | h1
      · exact absurd h1.symm hk
      · exact List.mem_cons_of_mem _ (ih h1)

/-! ### Seed, merge, and group lemmas -/

theorem seedZeros_spec (included : List Candidate) :
    (((Tally.seedZeros included).items.map Prod.fst).Nodup
      ∧ (∀ x, x ∈ (Tally.seedZeros included).items.map Prod.fst ↔ x ∈ included))
      ∧ ∀ p ∈ (Tally.seedZeros included).items, p.2 = 0 := by
  have main : ∀ (cs : List Candidate) (acc : List (Candidate × Int)),
      (acc.map Prod.fst).Nodup → (∀ p ∈ acc, p.2 = 0) →
      (((cs.foldl (fun a c => dictSet c 0 a) acc).map Prod.fst).Nodup
        ∧ (∀ x, x ∈ (cs.foldl (fun a c => dictSet c 0 a) acc).map Prod.fst
            ↔ (x ∈ acc.map Prod.fst ∨ x ∈ cs))
        ∧ ∀ p ∈ cs.foldl (fun a c => dictSet c 0 a) acc, p.2 = 0) := by
    intro cs
    induction cs with
    | nil =>
      intro acc hnd hz
      refine ⟨hnd, ?_, hz⟩
      simp
    | cons c cs ih =>
      intro acc hnd hz
      have hnd' : ((dictSet c 0 acc).map Prod.fst).Nodup := keysNodup_dictSet c 0 hnd
      have hz' : ∀ p ∈ dictSet c 0 acc, p.2 = 0 := by
        intro p hp
        have := entry_eq_lookup hnd' hp
        rw [this, lookupCount_dictSet]
        by_cases h : p.1 = c
        · simp [h]
        · rw [if_neg h]
          by_cases hm : p.1 ∈ acc.map Prod.fst
          · have := entry_eq_lookup hnd (lookup_entry_mem hm)
            have h0 := hz _ (lookup_entry_mem hm)
            simpa using h0
          · unfold lookupCount
            rw [List.find?_eq_none.mpr]
            · rfl
            · intro q hq hbeq
              exact hm (by
                have : q.1 = p.1 := by simpa using hbeq
                exact this ▸ List.mem_map_of_mem Prod.fst hq)
      obtain ⟨a1, a2, a3⟩ := ih (dictSet c 0 acc) hnd' hz'
      simp only [List.foldl_cons]
      refine ⟨a1, ?_, a3⟩
      intro x
      rw [a2 x, keys_dictSet]
      simp only [List.mem_cons]
      tauto
  obtain ⟨a1, a2, a3⟩ := main included [] (by simp) (by simp)
  refine ⟨⟨a1, ?_⟩, a3⟩
  intro x
  simp only [Tally.seedZeros]
  rw [a2 x]
  simp

theorem seedZeros_lookup (included : List Candidate) (x : Candidate) :
    lookupCount (Tally.seedZeros included).items x = 0 := by
  by_cases hm : x ∈ (Tally.seedZeros included).items.map Prod.fst
  · have h := (seedZeros_spec included).2 _ (lookup_entry_mem hm)
    simpa using h
  · unfold lookupCount
    rw [List.find?_eq_none.mpr]
    · rfl
    · intro q hq hbeq
      exact hm (by
        have : q.1 = x := by simpa using hbeq
        exact this ▸ List.mem_map_of_mem Prod.fst hq)

theorem keys_merge (t other : Tally) (x : Candidate) :
    x ∈ (t.merge other).items.map Prod.fst
      ↔ (x ∈ t.items.map Prod.fst ∨ x ∈ other.items.map Prod.fst) := by
  have main : ∀ (os acc : List (Candidate × Int)),
      (x ∈ (os.foldl (fun a p => dictIncr p.1 p.2 a) acc).map Prod.fst
        ↔ (x ∈ acc.map Prod.fst ∨ x ∈ os.map Prod.fst)) := by
    intro os
    induction os with
    | nil => simp
    | cons p ps ih =>
      intro acc
      simp only [List.foldl_cons]
      rw [ih, keys_dictIncr]
      simp only [List.map_cons, List.mem_cons]
      tauto
  exact main other.items t.items

theorem keysNodup_merge (t other : Tally)
    (h : (t.items.map Prod.fst).Nodup) :
    ((t.merge other).items.map Prod.fst).Nodup := by
  have main : ∀ (os acc : List (Candidate × Int)), (acc.map Prod.fst).Nodup →
      ((os.foldl (fun a p => dictIncr p.1 p.2 a) acc).map Prod.fst).Nodup := by
    intro os
    induction os with
    | nil => exact fun acc h => h
    | cons p ps ih =>
      intro acc hacc
      exact ih _ (keysNodup_dictIncr p.1 p.2 hacc)
  exact main other.items t.items h

theorem mem_firstGroup {res : List (Candidate × Int)} {c : Candidate}
    (h : c ∈ firstGroup res) : ∃ n, (c, n) ∈ res := by
  match res with
  | [] => cases h
  | r0 :: rest =>
    simp only [firstGroup, List.mem_map] at h
    obtain ⟨p, hp, hc⟩ := h
    exact ⟨p.2, hc ▸ (show (p.1, p.2) ∈ r0 :: rest from List.mem_of_mem_filter hp)⟩

theorem mem_secondGroup {res : List (Candidate × Int)} {c : Candidate}
    (h : c ∈ secondGroup res) : ∃ n, (c, n) ∈ res := by
  unfold secondGroup at h
  split at h
  · cases h
  · rename_i s0 rest heq
    simp only [List.mem_map] at h
    obtain ⟨p, hp, hc⟩ := h
    have hmem : p ∈ res.drop (firstGroup res).length := by
      rw [heq]
      exact List.mem_of_mem_filter hp
    exact ⟨p.2, hc ▸ (show (p.1, p.2) ∈ res from List.mem_of_mem_drop hmem)⟩

theorem firstGroup_nodup {res : List (Candidate × Int)}
    (h : (res.map Prod.fst).Nodup) : (firstGroup res).Nodup := by
  match res with
  | [] => simp [firstGroup]
  | r0 :: rest =>
    have hsub : ((r0 :: rest).filter (fun x => x.2 == r0.2)).Sublist (r0 :: rest) :=
      List.filter_sublist _
    have : (((r0 :: rest).filter (fun x => x.2 == r0.2)).map Prod.fst).Sublist
        ((r0 :: rest).map Prod.fst) := hsub.map Prod.fst
    exact (this.nodup h)

/-! ### Inversion lemmas for `RoundResult.make` -/

theorem make_eq_some {votes : Int} {t : Tally} {r : RoundResult}
    (h : RoundResult.make votes t = some r) :
    r.votes = votes ∧ r.res = sortDesc t.items ∧ r.first = firstGroup r.res
      ∧ r.second = secondGroup r.res
      ∧ r.percentages = r.res.map (fun x => (x.2 : ℚ) / (votes : ℚ))
      ∧ ¬ (votes = 0 ∧ t.items ≠ []) := by
  unfold RoundResult.make at h
  by_cases hc : votes = 0 ∧ Tally.to_ordered_list t ≠ []
  · rw [if_pos hc] at h
    cases h
  · rw [if_neg hc] at h
    have hr := (Option.some.injEq _ _).mp h
    subst hr
    refine ⟨rfl, rfl, rfl, rfl, rfl, ?_⟩
    intro hcon
    apply hc
    refine ⟨hcon.1, ?_⟩
    intro he
    apply hcon.2
    have := sortDesc_length t.items
    rw [show Tally.to_ordered_list t = sortDesc t.items from rfl] at he
    rw [he] at this
    exact List.eq_nil_of_length_eq_zero this.symm

theorem make_isSome {votes : Int} {t : Tally}
    (h : ¬ (votes = 0 ∧ t.items ≠ [])) :
    ∃ r, RoundResult.make votes t = some r := by
  unfold RoundResult.make
  rw [if_neg]
  · exact ⟨_, rfl⟩
  · intro hcon
    apply h
    refine ⟨hcon.1, ?_⟩
    intro he
    apply hcon.2
    show sortDesc t.items = []
    rw [he]
    rfl

/-- C8 — `RoundResult(votes, tally)` fails exactly when `votes == 0` and
the tally is non-empty; in every other case (in particular all `votes > 0`,
and `votes == 0` with an empty tally) construction succeeds. -/
theorem C8_make_fails_iff (votes : Int) (t : Tally) :
    RoundResult.make votes t = none ↔ (votes = 0 ∧ t.items ≠ []) := by
  constructor
  · intro h
    by_contra hcon
    obtain ⟨r, hr⟩ := make_isSome hcon
    rw [h] at hr
    cases hr
  · intro h
    unfold RoundResult.make
    rw [if_pos]
    refine ⟨h.1, ?_⟩
    intro he
    apply h.2
    have := sortDesc_length t.items
    rw [show Tally.to_ordered_list t = sortDesc t.items from rfl] at he
    rw [he] at this
    exact List.eq_nil_of_length_eq_zero this.symm

theorem firstGroup_length_le (res : List (Candidate × Int)) :
    (firstGroup res).length ≤ res.length := by
  match res with
  | [] => simp [firstGroup]
  | r0 :: rest =>
    simp only [firstGroup, List.length_map]
    exact List.length_filter_le _ _

theorem secondGroup_eq_nil_iff (res : List (Candidate × Int)) :
    secondGroup res = [] ↔ (firstGroup res).length = res.length := by
  constructor
  · intro h
    rcases hd : res.drop (firstGroup res).length with _ | ⟨s0, rest⟩
    · have hle := (List.drop_eq_nil_iff).mp hd
      exact le_antisymm (firstGroup_length_le res) hle
    · exfalso
      unfold secondGroup at h
      rw [hd] at h
      have h2 : ((s0 :: rest).filter (fun x => x.2 == s0.2)).map
          (fun x => x.1) = [] := h
      have hs0 : s0 ∈ (s0 :: rest).filter (fun x => x.2 == s0.2) := by
        simp
      have hmem : s0.1 ∈ ((s0 :: rest).filter (fun x => x.2 == s0.2)).map
          (fun x => x.1) := List.mem_map_of_mem _ hs0
      rw [h2] at hmem
      cases hmem
  · intro h
    unfold secondGroup
    rw [List.drop_eq_nil_iff.mpr (le_of_eq h.symm)]

/-- C10 as stated is false: a tally whose candidates are all tied at the
maximal count can still make the constructor fail, namely when `votes = 0`
(the percentage computation divides by zero). -/
theorem C10_counterexample :
    (∀ p ∈ (Tally.mk [((0 : Candidate), (1 : Int))]).items, p.2 = 1)
      ∧ RoundResult.make 0 (Tally.mk [((0 : Candidate), (1 : Int))]) = none := by
  constructor
  · intro p hp
    simp at hp
    simp [hp]
  · decide

/-- C10 (amended) — an empty tally always constructs (any `votes`,
including 0) with `first = second = []`; an all-tied tally constructs with
`second = []` provided `votes` is nonzero or the tally is empty; and in any
constructed result the second group is empty exactly when the first group
already exhausts the ranking. -/
theorem C10_tied_groups :
    (∀ votes : Int, ∃ r, RoundResult.make votes (Tally.mk []) = some r
        ∧ r.first = [] ∧ r.second = [])
    ∧ (∀ (votes : Int) (t : Tally) (m : Int), (∀ p ∈ t.items, p.2 = m) →
        (votes ≠ 0 ∨ t.items = []) →
        ∃ r, RoundResult.make votes t = some r ∧ r.second = [])
    ∧ (∀ (votes : Int) (t : Tally) (r : RoundResult),
        RoundResult.make votes t = some r →
        (r.second = [] ↔ r.first.length = r.res.length)) := by
  refine ⟨?_, ?_, ?_⟩
  · intro votes
    refine ⟨⟨votes, [], [], [], []⟩, ?_, rfl, rfl⟩
    unfold RoundResult.make
    rw [if_neg]
    · rfl
    · intro h
      exact h.2 rfl
  · intro votes t m hall hok
    have hsome : ∃ r, RoundResult.make votes t = some r := by
      apply make_isSome
      intro h
      rcases hok with h1 | h1
      · exact h1 h.1
      · exact h.2 h1
    obtain ⟨r, hr⟩ := hsome
    refine ⟨r, hr, ?_⟩
    obtain ⟨_, hres, hfirst, hsecond, _, _⟩ := make_eq_some hr
    rw [hsecond, secondGroup_eq_nil_iff, ← hfirst]
    have hall' : ∀ p ∈ r.res, p.2 = m := by
      intro p hp
      exact hall p (sortDesc_mem.mp (hres ▸ hp))
    rcases hres' : r.res with _ | ⟨r0, rest⟩
    · rw [hfirst, hres']
      rfl
    · rw [hfirst, hres']
      simp only [firstGroup, List.length_map]
      have hfil : (r0 :: rest).filter (fun x => x.2 == r0.2) = r0 :: rest := by
        rw [List.filter_eq_self]
        intro a ha
        have h1 : a.2 = m := hall' a (hres' ▸ ha)
        have h2 : r0.2 = m := hall' r0 (hres' ▸ List.mem_cons_self r0 rest)
        simp [h1, h2]
      rw [hfil]
  · intro votes t r hr
    obtain ⟨_, _, hfirst, hsecond, _, _⟩ := make_eq_some hr
    rw [hsecond, hfirst]
    exact secondGroup_eq_nil_iff r.res

/-- Witness for C10: a concrete two-way all-tied tally with one vote
constructs and has an empty second group. -/
theorem C10_witness :
    ∃ r, RoundResult.make 1 (Tally.mk [((0 : Candidate), (2 : Int)),
      ((1 : Candidate), (2 : Int))]) = some r ∧ r.second = [] :=
  C10_tied_groups.2.1 1 (Tally.mk [((0 : Candidate), (2 : Int)),
    ((1 : Candidate), (2 : Int))]) 2 (by decide) (by decide)

/-! ### Ballot validity (C6) and first-past-the-post (C5) -/

/-- C6 as stated is false on two inputs: the empty Chamber ballot meets the
claimed validity condition but `is_valid` raises (`reduce` over an empty
list) instead of returning `True`; and a ballot naming a candidate that is
not among the declared ones is still reported valid, because the code only
checks `isinstance(x, Candidate)`, never membership. -/
theorem C6_counterexample :
    ((ChamberBallot 1 []).votes.length ≤ 4
      ∧ (∀ v ∈ (ChamberBallot 1 []).votes, v ∈ ([0] : List Candidate))
      ∧ (ChamberBallot 1 []).is_valid ≠ some true)
    ∧ ((ChamberBallot 2 [5]).is_valid = some true
      ∧ (5 : Candidate) ∉ ([0] : List Candidate)) := by
  refine ⟨⟨by decide, ?_, by decide⟩, by decide, by decide⟩
  intro v hv
  cases hv

theorem foldl_and_true_of_isinstance (vs : List Candidate) :
    (vs.map isinstanceCandidate).foldl and true = true := by
  induction vs with
  | nil => rfl
  | cons v vs ih => simpa [isinstanceCandidate] using ih

/-- C6 (amended) — for every non-empty ballot, `is_valid` returns `True`
iff the ballot's length is at most the category maximum (4 for Chamber, 8
for Superior Council); membership in the declared candidate list is not
checked; and on the empty ballot `is_valid` raises instead of returning. -/
theorem C6_is_valid_amended (id : Int) (votes : List Candidate)
    (h : votes ≠ []) :
    ((ChamberBallot id votes).is_valid = some true ↔ votes.length ≤ 4)
    ∧ ((SuperiorCouncilBallot id votes).is_valid = some true ↔ votes.length ≤ 8)
    ∧ (ChamberBallot id []).is_valid = none
    ∧ (SuperiorCouncilBallot id []).is_valid = none := by
  obtain ⟨v, vs, rfl⟩ := List.exists_cons_of_ne_nil h
  have hfold : (vs.map isinstanceCandidate).foldl and true = true :=
    foldl_and_true_of_isinstance vs
  refine ⟨?_, ?_, rfl, rfl⟩
  · show Ballot.is_valid ⟨id, v :: vs, 4⟩ = some true ↔ (v :: vs).length ≤ 4
    unfold Ballot.is_valid
    by_cases hlen : (((v :: vs).length : Nat) : Int) ≤ 4
    · rw [if_pos hlen]
      simp only [List.map_cons, isinstanceCandidate, hfold]
      constructor
      · intro _
        exact_mod_cast hlen
      · intro _
        trivial
    · rw [if_neg hlen]
      constructor
      · intro hcon
        exact absurd ((Option.some.injEq _ _).mp hcon) (by simp)
      · intro hcon
        exact absurd (by exact_mod_cast hcon) hlen
  · show Ballot.is_valid ⟨id, v :: vs, 8⟩ = some true ↔ (v :: vs).length ≤ 8
    unfold Ballot.is_valid
    by_cases hlen : (((v :: vs).length : Nat) : Int) ≤ 8
    · rw [if_pos hlen]
      simp only [List.map_cons, isinstanceCandidate, hfold]
      constructor
      · intro _
        exact_mod_cast hlen
      · intro _
        trivial
    · rw [if_neg hlen]
      constructor
      · intro hcon
        exact absurd ((Option.some.injEq _ _).mp hcon) (by simp)
      · intro hcon
        exact absurd (by exact_mod_cast hcon) hlen

/-- Witness for the amended C6 at a concrete non-empty ballot. -/
theorem C6_witness :
    ((ChamberBallot 1 [0]).is_valid = some true ↔ [(0 : Candidate)].length ≤ 4)
    ∧ ((SuperiorCouncilBallot 1 [0]).is_valid = some true
        ↔ [(0 : Candidate)].length ≤ 8)
    ∧ (ChamberBallot 1 []).is_valid = none
    ∧ (SuperiorCouncilBallot 1 []).is_valid = none :=
  C6_is_valid_amended 1 [0] (by decide)

/-- C5 — evaluation of `FirstPastThePostRound.ballot_tally` at the failing
input: a ballot whose single (hence last) vote sits exactly at preference
position `round_n = 1` and is in `included`, yet the guard
`len(ballot.votes) > self.round + 1` rejects it and no vote is added. -/
theorem C5_fptp_eval :
    fptpBallotTally [7] 1 (ChamberBallot 1 [7]) = Tally.mk []
    ∧ 1 ≤ (ChamberBallot 1 [7]).votes.length
    ∧ (ChamberBallot 1 [7]).votes.getD 0 0 = 7
    ∧ ([7] : List Candidate).contains 7 = true := by
  decide

/-! ### Borda per-ballot scoring (C7) -/

theorem bordaFill_untouched (included : List Candidate) (x : Candidate) :
    ∀ (vs : List Candidate) (i : Nat) (acc : List (Candidate × Int)),
    x ∉ vs →
    lookupCount (bordaFill included i vs acc) x = lookupCount acc x := by
  intro vs
  induction vs with
  | nil => intro i acc _; rfl
  | cons v vs ih =>
    intro i acc hx
    have hxv : ¬ x = v := fun h => hx (h ▸ List.mem_cons_self v vs)
    have hxvs : x ∉ vs := fun h => hx (List.mem_cons_of_mem v h)
    show lookupCount (bordaFill included (i + 1) vs
      (if included.contains v then dictSet v (8 - (i : Int)) acc else acc)) x
        = lookupCount acc x
    rw [ih (i + 1) _ hxvs]
    by_cases hc : included.contains v
    · rw [if_pos hc, lookupCount_dictSet, if_neg hxv]
    · rw [if_neg hc]

theorem bordaFill_get (included : List Candidate) :
    ∀ (vs : List Candidate) (k : Nat) (acc : List (Candidate × Int)) (i : Nat)
    (hi : i < vs.length), vs.Nodup →
    lookupCount (bordaFill included k vs acc) (vs.get ⟨i, hi⟩)
      = if included.contains (vs.get ⟨i, hi⟩) then 8 - ((k + i : Nat) : Int)
        else lookupCount acc (vs.get ⟨i, hi⟩) := by
  intro vs
  induction vs with
  | nil => intro k acc i hi; cases hi
  | cons v vs ih =>
    intro k acc i hi hnd
    rcases List.nodup_cons.mp hnd with ⟨hv, hnd'⟩
    match i with
    | 0 =>
      show lookupCount (bordaFill included (k + 1) vs
        (if included.contains v then dictSet v (8 - (k : Int)) acc else acc)) v
          = if included.contains v then 8 - ((k + 0 : Nat) : Int)
            else lookupCount acc v
      rw [bordaFill_untouched included v vs (k + 1) _ hv]
      by_cases hc : included.contains v
      · rw [if_pos hc, if_pos hc, lookupCount_dictSet, if_pos rfl]
        norm_num
      · rw [if_neg hc, if_neg hc]
    | j + 1 =>
      have hj : j < vs.length := Nat.lt_of_succ_lt_succ hi
      show lookupCount (bordaFill included (k + 1) vs
        (if included.contains v then dictSet v (8 - (k : Int)) acc else acc))
          (vs.get ⟨j, hj⟩)
          = if included.contains (vs.get ⟨j, hj⟩)
            then 8 - ((k + (j + 1) : Nat) : Int)
            else lookupCount acc (vs.get ⟨j, hj⟩)
      rw [ih (k + 1) _ j hj hnd']
      have hvne : ¬ vs.get ⟨j, hj⟩ = v := by
        intro h
        exact hv (h ▸ List.get_mem vs j hj)
      by_cases hc : included.contains (vs.get ⟨j, hj⟩)
      · rw [if_pos hc, if_pos hc]
        congr 1
        omega
      · rw [if_neg hc, if_neg hc]
        by_cases hcv : included.contains v
        · rw [if_pos hcv, lookupCount_dictSet, if_neg hvne]
        · rw [if_neg hcv]

/-- On any duplicate-free ballot (in particular on Chamber ballots, whose
category maximum is 4), the v2.0 Borda per-ballot tally scores the
candidate at 0-indexed position `i` with exactly `8 - i` when it is in
`included` — the weight 8 is fixed, independently of `max_votes` — and with
no score at all otherwise; skipped candidates do not shift the positions,
hence the scores, of the others. -/
theorem borda_v2_score (included : List Candidate) (b : Ballot)
    (i : Nat) (hi : i < b.votes.length) (hnd : b.votes.Nodup) :
    (bordaBallotTally included b).get (b.votes.get ⟨i, hi⟩)
      = if included.contains (b.votes.get ⟨i, hi⟩) then 8 - (i : Int)
        else 0 := by
  show lookupCount (bordaFill included 0 b.votes []) (b.votes.get ⟨i, hi⟩)
    = if included.contains (b.votes.get ⟨i, hi⟩) then 8 - (i : Int) else 0
  rw [bordaFill_get included b.votes 0 [] i hi hnd]
  simp [lookupCount_nil]

/-- The v2.0 scoring at a concrete input: on the Chamber ballot `[5, 6]`
with only candidate `6` included, position 1 scores `8 - 1 = 7`. -/
theorem borda_v2_score_example :
    (bordaBallotTally [6] (ChamberBallot 1 [5, 6])).get 6 = 7 := by
  have h := borda_v2_score [6] (ChamberBallot 1 [5, 6]) 1
    (by decide) (by decide)
  simpa using h

/-- The loop of `BordaRankedRound.ballot_tally` in the v1.0 variant
(`program/elections.py`, lines 297-299):

    dict = {}
    for i in range(len(ballot.votes)):
        dict[ballot.votes[i]] = 8 - i

Unlike the v2.0 variant, there is no `in self.included` membership check,
although the class documents `included` as "candidates to be included in
the tally". -/
def bordaFillV1 :
    Nat → List Candidate → List (Candidate × Int) → List (Candidate × Int)
  | _, [], acc => acc
  | i, v :: vs, acc => bordaFillV1 (i + 1) vs (dictSet v (8 - (i : Int)) acc)

/-- `BordaRankedRound.ballot_tally` of the v1.0 variant: every candidate on
the ballot is scored, whether included or not. -/
def bordaBallotTallyV1 (b : Ballot) : Tally :=
  ⟨bordaFillV1 0 b.votes []⟩

/-- C7 — the divergence at the claim's cited v1.0 code
(`program/elections.py:288-300`): on the ballot `[5, 6]` with included set
`[6]`, the non-included candidate `5` at position 0 nonetheless receives a
score of `8 - 0 = 8` from the v1.0 `ballot_tally`, while the v2.0 variant
(`src/elections.py:315-328`), which the spec describes, gives it no score. -/
theorem C7_v1_divergence :
    (bordaBallotTallyV1 (ChamberBallot 1 [5, 6])).get 5 = 8
    ∧ (5 : Candidate) ∉ ([6] : List Candidate)
    ∧ (bordaBallotTally [6] (ChamberBallot 1 [5, 6])).get 5 = 0
    ∧ (bordaBallotTally [6] (ChamberBallot 1 [5, 6])).get 6 = 7 := by
  decide

/-! ### Monotonicity of `over_half` (C9) -/

/-- C9 — for a result constructed from strictly positive `votes` and a
tally of non-negative counts, `over_half` is monotone: once true at `n`, it
is true at every `n' > n`. -/
theorem C9_over_half_mono (votes : Int) (t : Tally) (hpos : 0 < votes)
    (hnn : ∀ p ∈ t.items, 0 ≤ p.2) (n n' : Nat) (hlt : n < n')
    (h : (RoundResult.make votes t).map (fun r => r.over_half n) = some true) :
    (RoundResult.make votes t).map (fun r => r.over_half n') = some true := by
  rcases hm : RoundResult.make votes t with _ | r
  · rw [hm] at h
    cases h
  · rw [hm] at h
    have h2 : r.over_half n = true := by simpa using h
    obtain ⟨hv, hres, _, _, hperc, _⟩ := make_eq_some hm
    have hsub : ∀ q ∈ r.percentages, (0 : ℚ) ≤ q := by
      intro q hq
      rw [hperc] at hq
      obtain ⟨p, hp, hpq⟩ := List.mem_map.mp hq
      have hmem : p ∈ t.items := sortDesc_mem.mp (hres ▸ hp)
      have : (0 : ℚ) ≤ (p.2 : ℚ) := by exact_mod_cast hnn p hmem
      have hvq : (0 : ℚ) < (votes : ℚ) := by exact_mod_cast hpos
      rw [← hpq]
      positivity
    have key : (r.percentages.take n).sum ≤ (r.percentages.take n').sum := by
      have hn' : n' = n + (n' - n) := by omega
      rw [hn', List.take_add, List.sum_append]
      have hge : (0 : ℚ) ≤ ((r.percentages.drop n).take (n' - n)).sum :=
        List.sum_nonneg (fun x hx =>
          hsub x (List.mem_of_mem_drop (List.mem_of_mem_take hx)))
      linarith
    have h3 : (1 : ℚ) / 2 < (r.percentages.take n).sum := by
      simpa [RoundResult.over_half] using h2
    have h4 : (1 : ℚ) / 2 < (r.percentages.take n').sum :=
      lt_of_lt_of_le h3 key
    simpa [RoundResult.over_half] using h4

/-- Witness for C9 at a concrete result: one candidate with all of 2 votes;
`over_half 1` holds, hence `over_half 2` holds. -/
theorem C9_witness :
    (0 : Int) < 2
      ∧ (RoundResult.make 2 (Tally.mk [((0 : Candidate), (2 : Int))])).map
          (fun r => r.over_half 2) = some true :=
  ⟨by decide, C9_over_half_mono 2 (Tally.mk [((0 : Candidate), (2 : Int))])
    (by decide) (by decide) 1 2 (by decide)
    (by norm_num [RoundResult.make, Tally.to_ordered_list, sortDesc, insertDesc,
      firstGroup, secondGroup, RoundResult.over_half])⟩

/-! ### The preferential loop and C4 -/

theorem prefLoop_lookup (pref : Ballot → Option Candidate) :
    ∀ (bs : List Ballot) (t : Tally) (v : Int) (x : Candidate),
    lookupCount (prefLoop pref bs (t, v)).1.items x
      = lookupCount t.items x
        + ((bs.filter (fun b => pref b == some x)).length : Int) := by
  intro bs
  induction bs with
  | nil => intro t v x; simp [prefLoop]
  | cons b bs ih =>
    intro t v x
    rcases hb : pref b with _ | c
    · have hf : List.filter (fun b => pref b == some x) (b :: bs)
          = List.filter (fun b => pref b == some x) bs := by
        rw [List.filter_cons, show (pref b == some x) = false by rw [hb]; rfl]
        simp
      rw [show prefLoop pref (b :: bs) (t, v) = prefLoop pref bs (t, v - 1) by
        simp [prefLoop, hb]]
      rw [ih, hf]
    · by_cases hx : c = x
      · subst hx
        have hf : List.filter (fun b => pref b == some c) (b :: bs)
            = b :: List.filter (fun b => pref b == some c) bs := by
          rw [List.filter_cons, show (pref b == some c) = true by rw [hb]; simp]
          simp
        rw [show prefLoop pref (b :: bs) (t, v)
            = prefLoop pref bs (t.add_vote_to_candidate c, v) by
          simp [prefLoop, hb]]
        rw [ih, hf]
        show lookupCount (dictIncr c 1 t.items) c + _ = _
        rw [lookupCount_dictIncr, if_pos rfl]
        simp only [List.length_cons]
        push_cast
        ring
      · have hf : List.filter (fun b => pref b == some x) (b :: bs)
            = List.filter (fun b => pref b == some x) bs := by
          rw [List.filter_cons, show (pref b == some x) = false by
            rw [hb]; simpa using hx]
          simp
        rw [show prefLoop pref (b :: bs) (t, v)
            = prefLoop pref bs (t.add_vote_to_candidate c, v) by
          simp [prefLoop, hb]]
        rw [ih, hf]
        show lookupCount (dictIncr c 1 t.items) x + _ = _
        rw [lookupCount_dictIncr, if_neg (fun h => hx h.symm)]
        ring

theorem prefLoop_votes (pref : Ballot → Option Candidate) :
    ∀ (bs : List Ballot) (t : Tally) (v : Int),
    (prefLoop pref bs (t, v)).2
      = v - ((bs.filter (fun b => (pref b).isNone)).length : Int) := by
  intro bs
  induction bs with
  | nil => intro t v; simp [prefLoop]
  | cons b bs ih =>
    intro t v
    rcases hb : pref b with _ | c
    · have hf : List.filter (fun b => (pref b).isNone) (b :: bs)
          = b :: List.filter (fun b => (pref b).isNone) bs := by
        rw [List.filter_cons, show (pref b).isNone = true by rw [hb]; rfl]
        simp
      rw [show prefLoop pref (b :: bs) (t, v) = prefLoop pref bs (t, v - 1) by
        simp [prefLoop, hb]]
      rw [ih, hf]
      simp only [List.length_cons]
      push_cast
      ring
    · have hf : List.filter (fun b => (pref b).isNone) (b :: bs)
          = List.filter (fun b => (pref b).isNone) bs := by
        rw [List.filter_cons, show ((pref b).isNone) = false by rw [hb]; rfl]
        simp
      rw [show prefLoop pref (b :: bs) (t, v)
          = prefLoop pref bs (t.add_vote_to_candidate c, v) by
        simp [prefLoop, hb]]
      rw [ih, hf]

theorem prefLoop_keys (pref : Ballot → Option Candidate) :
    ∀ (bs : List Ballot) (t : Tally) (v : Int) (x : Candidate),
    x ∈ (prefLoop pref bs (t, v)).1.items.map Prod.fst →
    x ∈ t.items.map Prod.fst ∨ ∃ b ∈ bs, pref b = some x := by
  intro bs
  induction bs with
  | nil => intro t v x h; exact Or.inl h
  | cons b bs ih =>
    intro t v x h
    rcases hb : pref b with _ | c
    · rw [show prefLoop pref (b :: bs) (t, v)
          = prefLoop pref bs (t, v - 1) by simp [prefLoop, hb]] at h
      rcases ih _ _ _ h with h1 | ⟨b', hb', hp⟩
      · exact Or.inl h1
      · exact Or.inr ⟨b', List.mem_cons_of_mem b hb', hp⟩
    · rw [show prefLoop pref (b :: bs) (t, v)
          = prefLoop pref bs (t.add_vote_to_candidate c, v) by
            simp [prefLoop, hb]] at h
      rcases ih _ _ _ h with h1 | ⟨b', hb', hp⟩
      · rcases (keys_dictIncr c 1 t.items x).mp h1 with h2 | h2
        · exact Or.inl h2
        · exact Or.inr ⟨b, List.mem_cons_self b bs, h2 ▸ hb⟩
      · exact Or.inr ⟨b', List.mem_cons_of_mem b hb', hp⟩

theorem filter_none_add_isSome (pref : Ballot → Option Candidate)
    (bs : List Ballot) :
    (bs.filter (fun b => (pref b).isNone)).length
      + (bs.filter (fun b => (pref b).isSome)).length = bs.length := by
  induction bs with
  | nil => rfl
  | cons b bs ih =>
    rcases hb : pref b with _ | c
    · rw [List.filter_cons, List.filter_cons,
        show (pref b).isNone = true by rw [hb]; rfl,
        show (pref b).isSome = false by rw [hb]; rfl]
      simp only [if_pos rfl, eq_self_iff_true, if_true, Bool.false_eq_true, if_false, List.length_cons]
      omega
    · rw [List.filter_cons, List.filter_cons,
        show (pref b).isNone = false by rw [hb]; rfl,
        show (pref b).isSome = true by rw [hb]; rfl]
      simp only [if_pos rfl, eq_self_iff_true, if_true, Bool.false_eq_true, if_false, List.length_cons]
      omega

theorem find?_isSome_eq_any (p : Candidate → Bool) (l : List Candidate) :
    (l.find? p).isSome = l.any p := by
  induction l with
  | nil => rfl
  | cons x xs ih =>
    rcases hx : p x with _ | _
    · simp [List.find?, hx, ih]
    · simp [List.find?, hx]

/-- C4 — in a preferential exclusive round, the tally gives each candidate
`c` exactly the number of ballots whose first vote not in `excluded` is `c`,
and the result's `votes` is the number of ballots that contain at least one
vote outside `excluded` (the rest abstain and count toward neither).  The
round result always constructs. -/
theorem C4_exclusive_round (ballots : List Ballot) (excluded : List Candidate)
    (c : Candidate) :
    ∃ r, PreferentialExclusiveRound.result ballots excluded = some r
      ∧ (PreferentialExclusiveRound.state ballots excluded).1.get c
          = ((ballots.filter (fun b =>
              b.votes.find? (fun v => !(excluded.contains v)) == some c)).length : Int)
      ∧ r.votes = ((ballots.filter (fun b =>
          b.votes.any (fun v => !(excluded.contains v)))).length : Int) := by
  have hlook : (PreferentialExclusiveRound.state ballots excluded).1.get c
      = ((ballots.filter (fun b =>
          b.votes.find? (fun v => !(excluded.contains v)) == some c)).length : Int) := by
    show lookupCount (prefLoop (exclusivePreferred excluded) ballots
      (⟨[]⟩, (ballots.length : Int))).1.items c = _
    rw [prefLoop_lookup]
    simp [lookupCount_nil, exclusivePreferred]
  have hfil : ballots.filter (fun b => (exclusivePreferred excluded b).isSome)
      = ballots.filter (fun b => b.votes.any (fun v => !(excluded.contains v))) := by
    apply List.filter_congr
    intro b _
    exact find?_isSome_eq_any _ _
  have hvotes : (PreferentialExclusiveRound.state ballots excluded).2
      = ((ballots.filter (fun b =>
          b.votes.any (fun v => !(excluded.contains v)))).length : Int) := by
    show (prefLoop (exclusivePreferred excluded) ballots
      (⟨[]⟩, (ballots.length : Int))).2 = _
    rw [prefLoop_votes]
    have hsum := filter_none_add_isSome (exclusivePreferred excluded) ballots
    rw [← hfil]
    omega
  have hmk : ∃ r, PreferentialExclusiveRound.result ballots excluded = some r := by
    apply make_isSome
    intro ⟨h0, hne⟩
    obtain ⟨p, hp⟩ := List.exists_mem_of_ne_nil _ hne
    have hkey : p.1 ∈ (PreferentialExclusiveRound.state ballots excluded).1.items.map
        Prod.fst := List.mem_map_of_mem Prod.fst hp
    rcases prefLoop_keys (exclusivePreferred excluded) ballots _ _ _ hkey with h1 | h1
    · cases h1
    · obtain ⟨b, hb, hpref⟩ := h1
      have hmemf : b ∈ ballots.filter
          (fun b => (exclusivePreferred excluded b).isSome) :=
        List.mem_filter.mpr ⟨hb, by rw [hpref]; rfl⟩
      have hpos : 0 < (ballots.filter
          (fun b => (exclusivePreferred excluded b).isSome)).length :=
        List.length_pos.mpr (List.ne_nil_of_mem hmemf)
      rw [hvotes, ← hfil] at h0
      omega
  obtain ⟨r, hr⟩ := hmk
  obtain ⟨hrv, _, _, _, _, _⟩ := make_eq_some hr
  exact ⟨r, hr, hlook, by rw [hrv, hvotes]⟩

/-- C1 — the persistent-tie cascade runs the approval round over
`candidates` and returns its result when its `first` is within
`max_winners`; otherwise the Borda round over the same `candidates`,
returned under the same condition; otherwise a presidential round over the
Borda round's `first` when the fallback is enabled, and the still-tied
Borda result unchanged when it is disabled. -/
theorem persistent_tie_eq (ballots : List Ballot) (itf : Itf)
    (candidates : List Candidate) (max_winners : Nat) (pres : Bool) :
    Election.persistent_tie_rounds ballots itf candidates max_winners pres
      = (ConstantRankedRound.result ballots candidates).bind (fun r1 =>
          if r1.first.length ≤ max_winners then some r1
          else (BordaRankedRound.result ballots candidates).bind (fun r2 =>
            if r2.first.length ≤ max_winners then some r2
            else if pres then
              PresidentialRound.result itf ballots r2.first max_winners
            else some r2)) := by
  unfold Election.persistent_tie_rounds
  rcases ConstantRankedRound.result ballots candidates with _ | r1
  · rfl
  · show (if r1.first.length ≤ max_winners then some r1 else _) = _
    by_cases h1 : r1.first.length ≤ max_winners
    · simp only [if_pos h1, Option.some_bind]
    · simp only [if_neg h1, Option.some_bind]
      rcases BordaRankedRound.result ballots candidates with _ | r2
      · rfl
      · by_cases h2 : r2.first.length ≤ max_winners
        · simp [if_pos h2]
        · rcases pres with _ | _ <;> simp [if_neg h2]

theorem C1_persistent_tie_cascade (ballots : List Ballot) (itf : Itf)
    (candidates : List Candidate) (max_winners : Nat) (pres : Bool) :
    Election.persistent_tie_rounds ballots itf candidates max_winners pres
      = (ConstantRankedRound.result ballots candidates).bind (fun r1 =>
          if r1.first.length ≤ max_winners then some r1
          else (BordaRankedRound.result ballots candidates).bind (fun r2 =>
            if r2.first.length ≤ max_winners then some r2
            else if pres then
              PresidentialRound.result itf ballots r2.first max_winners
            else some r2)) :=
  persistent_tie_eq ballots itf candidates max_winners pres

/-! ### Sums and non-negativity of preferential tallies -/

theorem mem_dictIncr_cases {c : Candidate} {n : Int} {l : List (Candidate × Int)}
    {p : Candidate × Int} (hp : p ∈ dictIncr c n l) :
    p ∈ l ∨ (∃ q ∈ l, p = (q.1, q.2 + n)) ∨ p = (c, n) := by
  induction l with
  | nil =>
    simp only [dictIncr, List.mem_singleton] at hp
    exact Or.inr (Or.inr hp)
  | cons q rest ih =>
    obtain ⟨k, v⟩ := q
    by_cases hk : k = c
    · subst hk
      simp only [dictIncr, eq_self_iff_true, if_true, List.mem_cons] at hp
      rcases hp with hp | hp
      · exact Or.inr (Or.inl ⟨(k, v), List.mem_cons_self _ _, hp⟩)
      · exact Or.inl (List.mem_cons_of_mem _ hp)
    · simp only [dictIncr, if_neg hk, List.mem_cons] at hp
      rcases hp with hp | hp
      · exact Or.inl (hp ▸ List.mem_cons_self _ _)
      · rcases ih hp with h1 | ⟨q', hq', he⟩ | h1
        · exact Or.inl (List.mem_cons_of_mem _ h1)
        · exact Or.inr (Or.inl ⟨q', List.mem_cons_of_mem _ hq', he⟩)
        · exact Or.inr (Or.inr h1)

theorem prefLoop_nonneg (pref : Ballot → Option Candidate) :
    ∀ (bs : List Ballot) (t : Tally) (v : Int),
    (∀ p ∈ t.items, 0 ≤ p.2) →
    ∀ p ∈ (prefLoop pref bs (t, v)).1.items, 0 ≤ p.2 := by
  intro bs
  induction bs with
  | nil => intro t v h; exact h
  | cons b bs ih =>
    intro t v h p hp
    rcases hb : pref b with _ | c
    · rw [show prefLoop pref (b :: bs) (t, v) = prefLoop pref bs (t, v - 1) by
        simp [prefLoop, hb]] at hp
      exact ih _ _ h p hp
    · rw [show prefLoop pref (b :: bs) (t, v)
          = prefLoop pref bs (t.add_vote_to_candidate c, v) by
        simp [prefLoop, hb]] at hp
      refine ih _ _ ?_ p hp
      intro q hq
      rcases mem_dictIncr_cases hq with h1 | ⟨q', hq', he⟩ | h1
      · exact h q h1
      · have := h q' hq'
        rw [he]
        simpa using by omega
      · rw [h1]
        norm_num

theorem prefLoop_sum (pref : Ballot → Option Candidate) :
    ∀ (bs : List Ballot) (t : Tally) (v : Int),
    ((prefLoop pref bs (t, v)).1.items.map (fun p => p.2)).sum
      = (t.items.map (fun p => p.2)).sum
        + ((bs.filter (fun b => (pref b).isSome)).length : Int) := by
  intro bs
  induction bs with
  | nil => intro t v; simp [prefLoop]
  | cons b bs ih =>
    intro t v
    rcases hb : pref b with _ | c
    · have hf : List.filter (fun b => (pref b).isSome) (b :: bs)
          = List.filter (fun b => (pref b).isSome) bs := by
        rw [List.filter_cons, show (pref b).isSome = false by rw [hb]; rfl]
        simp
      rw [show prefLoop pref (b :: bs) (t, v) = prefLoop pref bs (t, v - 1) by
        simp [prefLoop, hb]]
      rw [ih, hf]
    · have hf : List.filter (fun b => (pref b).isSome) (b :: bs)
          = b :: List.filter (fun b => (pref b).isSome) bs := by
        rw [List.filter_cons, show (pref b).isSome = true by rw [hb]; rfl]
        simp
      rw [show prefLoop pref (b :: bs) (t, v)
          = prefLoop pref bs (t.add_vote_to_candidate c, v) by
        simp [prefLoop, hb]]
      rw [ih, hf]
      simp only [Tally.add_vote_to_candidate]
      rw [sum_dictIncr]
      simp only [List.length_cons]
      push_cast
      ring

/-- If every element of an integer list is non-negative, the elements equal
to `m` contribute at least `k * m` to the sum, where `k` counts them. -/
theorem sum_ge_count_mul (m : Int) :
    ∀ (L : List Int), (∀ x ∈ L, 0 ≤ x) →
    ((L.filter (fun x => x == m)).length : Int) * m ≤ L.sum := by
  intro L
  induction L with
  | nil => intro _; simp
  | cons x xs ih =>
    intro hnn
    have hx : 0 ≤ x := hnn x (List.mem_cons_self _ _)
    have hxs := ih (fun y hy => hnn y (List.mem_cons_of_mem _ hy))
    rcases hcmp : (x == m) with _ | _
    · rw [List.filter_cons, hcmp]
      simp only [Bool.false_eq_true, if_false, List.sum_cons]
      omega
    · have hxm : x = m := by simpa using hcmp
      rw [List.filter_cons, hcmp]
      have hlen : ((x :: (xs.filter (fun y => y == m))).length : Int)
          = ((xs.filter (fun y => y == m)).length : Int) + 1 := by
        simp
      simp only [eq_self_iff_true, if_true, List.sum_cons]
      rw [hlen]
      subst hxm
      nlinarith [hxs]

theorem length_filter_snd (p : Int → Bool) :
    ∀ (l : List (Candidate × Int)),
    (l.filter (fun x => p x.2)).length = ((l.map (fun x => x.2)).filter p).length := by
  intro l
  induction l with
  | nil => rfl
  | cons q rest ih =>
    rcases h : p q.2 with _ | _
    · simp only [List.map_cons, List.filter_cons, h]
      simpa using ih
    · simp only [List.map_cons, List.filter_cons, h]
      simpa using ih

/-- In a constructed round result whose tally counts are non-negative and
sum to `votes`, a strict majority at the top (`over_half 1`) forces a unique
leader. -/
theorem overhalf_one_singleton {votes : Int} {t : Tally} {r : RoundResult}
    (hmk : RoundResult.make votes t = some r)
    (hnn : ∀ p ∈ t.items, 0 ≤ p.2)
    (hsum : (t.items.map (fun p => p.2)).sum = votes)
    (hoh : r.over_half 1 = true) : r.first.length = 1 := by
  obtain ⟨hv, hres, hfirst, _, hperc, hguard⟩ := make_eq_some hmk
  have hohq : (1 : ℚ) / 2 < (r.percentages.take 1).sum := by
    simpa [RoundResult.over_half] using hoh
  rcases hr : r.res with _ | ⟨r0, rest⟩
  · exfalso
    rw [hperc, hr] at hohq
    norm_num at hohq
  · have hph : (r.percentages.take 1).sum = (r0.2 : ℚ) / (votes : ℚ) := by
      rw [hperc, hr]
      simp
    rw [hph] at hohq
    have hresnn : ∀ p ∈ r.res, 0 ≤ p.2 := fun p hp =>
      hnn p (sortDesc_mem.mp (by rw [← hres]; exact hp))
    have hr0nn : (0 : Int) ≤ r0.2 := hresnn r0 (by rw [hr]; exact List.mem_cons_self _ _)
    have hitems_ne : t.items ≠ [] := by
      intro he
      rw [he] at hres
      rw [hres] at hr
      cases hr
    have hvne : votes ≠ 0 := fun h0 => hguard ⟨h0, hitems_ne⟩
    have hvnn : 0 ≤ votes := by
      rw [← hsum]
      refine List.sum_nonneg ?_
      intro x hx
      obtain ⟨p, hp, rfl⟩ := List.mem_map.mp hx
      exact hnn p hp
    have hvpos : 0 < votes := lt_of_le_of_ne hvnn (Ne.symm hvne)
    have hsum_res : (r.res.map (fun p => p.2)).sum = votes := by
      rw [hres, ← hsum]
      exact List.Perm.sum_eq ((sortDesc_perm t.items).map (fun p => p.2))
    have hflen : r.first.length = (r.res.filter (fun x => x.2 == r0.2)).length := by
      rw [hfirst, hr]
      simp only [firstGroup, List.length_map]
    have hcount : (((r.res.map (fun p => p.2)).filter
        (fun x => x == r0.2)).length : Int) * r0.2 ≤ votes := by
      rw [← hsum_res]
      refine sum_ge_count_mul r0.2 _ ?_
      intro x hx
      obtain ⟨p, hp, rfl⟩ := List.mem_map.mp hx
      exact hresnn p hp
    have hlenfil := length_filter_snd (fun x => x == r0.2) r.res
    have hmajor : (votes : ℚ) < 2 * (r0.2 : ℚ) := by
      have hvq : (0 : ℚ) < (votes : ℚ) := by exact_mod_cast hvpos
      rw [div_lt_div_iff₀ (by norm_num) hvq] at hohq
      linarith
    have hmajor' : votes < 2 * r0.2 := by exact_mod_cast hmajor
    have hk1 : 1 ≤ (r.res.filter (fun x => x.2 == r0.2)).length := by
      have : r0 ∈ r.res.filter (fun x => x.2 == r0.2) := by
        refine List.mem_filter.mpr ⟨?_, by simp⟩
        rw [hr]
        exact List.mem_cons_self _ _
      exact List.length_pos.mpr (List.ne_nil_of_mem this)
    by_contra hne
    have hk2 : 2 ≤ (r.res.filter (fun x => x.2 == r0.2)).length := by
      rw [hflen] at hne
      omega
    have hkc : (2 : Int) ≤ (((r.res.map (fun p => p.2)).filter
        (fun x => x == r0.2)).length : Int) := by
      rw [← hlenfil]
      exact_mod_cast hk2
    nlinarith [hcount, hkc, hr0nn, hmajor']

/-! ### Key subsets for each round family -/

theorem result_first_keys {votes : Int} {t : Tally} {r : RoundResult}
    (h : RoundResult.make votes t = some r) {c : Candidate}
    (hc : c ∈ r.first) : ∃ n, (c, n) ∈ r.res := by
  obtain ⟨_, _, hfirst, _, _, _⟩ := make_eq_some h
  exact mem_firstGroup (by rw [hfirst] at hc; exact hc)

theorem result_second_keys {votes : Int} {t : Tally} {r : RoundResult}
    (h : RoundResult.make votes t = some r) {c : Candidate}
    (hc : c ∈ r.second) : ∃ n, (c, n) ∈ r.res := by
  obtain ⟨_, _, _, hsecond, _, _⟩ := make_eq_some h
  exact mem_secondGroup (by rw [hsecond] at hc; exact hc)

theorem exclusive_res_keys {ballots : List Ballot} {excl : List Candidate}
    {r : RoundResult}
    (h : PreferentialExclusiveRound.result ballots excl = some r) :
    ∀ p ∈ r.res, p.1 ∉ excl := by
  unfold PreferentialExclusiveRound.result at h
  obtain ⟨_, hres, _, _, _, _⟩ := make_eq_some h
  intro p hp
  have hitems : p ∈ (PreferentialExclusiveRound.state ballots excl).1.items :=
    sortDesc_mem.mp (by rw [← hres]; exact hp)
  have hkey := List.mem_map_of_mem Prod.fst hitems
  rcases prefLoop_keys _ ballots _ _ _ hkey with h1 | ⟨b, _, hpref⟩
  · cases h1
  · have hfind := List.find?_some hpref
    intro hmem
    rw [show (excl.contains p.1) = true by
      exact List.elem_eq_true_of_mem hmem] at hfind
    cases hfind

theorem inclusive_res_keys {ballots : List Ballot} {incl : List Candidate}
    {r : RoundResult}
    (h : PreferentialInclusiveRound.result ballots incl = some r) :
    ∀ p ∈ r.res, p.1 ∈ incl := by
  unfold PreferentialInclusiveRound.result at h
  obtain ⟨_, hres, _, _, _, _⟩ := make_eq_some h
  intro p hp
  have hitems : p ∈ (PreferentialInclusiveRound.state ballots incl).1.items :=
    sortDesc_mem.mp (by rw [← hres]; exact hp)
  have hkey := List.mem_map_of_mem Prod.fst hitems
  rcases prefLoop_keys _ ballots _ _ _ hkey with h1 | ⟨b, _, hpref⟩
  · exact ((seedZeros_spec incl).1.2 p.1).mp h1
  · have hfind := List.find?_some hpref
    exact List.mem_of_elem_eq_true hfind

/-- The first-round facts needed by the seat loop: leaders avoid the
exclusion set, and a strict majority forces a unique leader. -/
theorem exclusive_first_spec {ballots : List Ballot} {excl : List Candidate}
    {r : RoundResult}
    (h : PreferentialExclusiveRound.result ballots excl = some r) :
    (∀ x ∈ r.first, x ∉ excl) ∧ (r.over_half 1 = true → r.first.length = 1) := by
  constructor
  · intro x hx
    obtain ⟨n, hn⟩ := result_first_keys (by
      unfold PreferentialExclusiveRound.result at h
      exact h) hx
    exact exclusive_res_keys h (x, n) hn
  · intro hoh
    unfold PreferentialExclusiveRound.result at h
    refine overhalf_one_singleton h ?_ ?_ hoh
    · exact prefLoop_nonneg _ ballots _ _ (by intro p hp; cases hp)
    · show ((prefLoop (exclusivePreferred excl) ballots
        (⟨[]⟩, (ballots.length : Int))).1.items.map (fun p => p.2)).sum
          = (prefLoop (exclusivePreferred excl) ballots
            (⟨[]⟩, (ballots.length : Int))).2
      rw [prefLoop_sum, prefLoop_votes]
      have := filter_none_add_isSome (exclusivePreferred excl) ballots
      simp only [Tally.items]
      simp only [List.map_nil, List.sum_nil]
      omega

theorem rankedLoop_keys (bt : Ballot → Tally) :
    ∀ (bs : List Ballot) (t : Tally) (v : Int) (x : Candidate),
    x ∈ (rankedLoop bt bs (t, v)).1.items.map Prod.fst →
    x ∈ t.items.map Prod.fst ∨ ∃ b ∈ bs, x ∈ (bt b).items.map Prod.fst := by
  intro bs
  induction bs with
  | nil => intro t v x h; exact Or.inl h
  | cons b bs ih =>
    intro t v x h
    by_cases hb : (bt b).is_empty
    · rw [show rankedLoop bt (b :: bs) (t, v) = rankedLoop bt bs (t, v) by
        simp [rankedLoop, hb]] at h
      rcases ih _ _ _ h with h1 | ⟨b', hb', hx⟩
      · exact Or.inl h1
      · exact Or.inr ⟨b', List.mem_cons_of_mem _ hb', hx⟩
    · rw [show rankedLoop bt (b :: bs) (t, v)
          = rankedLoop bt bs (t.merge (bt b), v + (bt b).sumCounts) by
        simp [rankedLoop, hb]] at h
      rcases ih _ _ _ h with h1 | ⟨b', hb', hx⟩
      · rcases (keys_merge t (bt b) x).mp h1 with h2 | h2
        · exact Or.inl h2
        · exact Or.inr ⟨b, List.mem_cons_self _ _, h2⟩
      · exact Or.inr ⟨b', List.mem_cons_of_mem _ hb', hx⟩

theorem rankedLoop_keysNodup (bt : Ballot → Tally) :
    ∀ (bs : List Ballot) (t : Tally) (v : Int),
    (t.items.map Prod.fst).Nodup →
    ((rankedLoop bt bs (t, v)).1.items.map Prod.fst).Nodup := by
  intro bs
  induction bs with
  | nil => intro t v h; exact h
  | cons b bs ih =>
    intro t v h
    by_cases hb : (bt b).is_empty
    · rw [show rankedLoop bt (b :: bs) (t, v) = rankedLoop bt bs (t, v) by
        simp [rankedLoop, hb]]
      exact ih _ _ h
    · rw [show rankedLoop bt (b :: bs) (t, v)
          = rankedLoop bt bs (t.merge (bt b), v + (bt b).sumCounts) by
        simp [rankedLoop, hb]]
      exact ih _ _ (keysNodup_merge _ _ h)

theorem constantBallotTally_keys (included : List Candidate) (b : Ballot)
    (x : Candidate)
    (h : x ∈ (constantBallotTally included b).items.map Prod.fst) :
    x ∈ included := by
  unfold constantBallotTally at h
  simp only [Tally.items, List.map_map, List.mem_map] at h
  obtain ⟨c, hc, rfl⟩ := h
  have := List.of_mem_filter hc
  simpa using this

theorem bordaFill_keys (included : List Candidate) :
    ∀ (vs : List Candidate) (i : Nat) (acc : List (Candidate × Int))
    (x : Candidate),
    x ∈ (bordaFill included i vs acc).map Prod.fst →
    x ∈ acc.map Prod.fst ∨ x ∈ included := by
  intro vs
  induction vs with
  | nil => intro i acc x h; exact Or.inl h
  | cons v vs ih =>
    intro i acc x h
    rcases ih (i + 1) _ x h with h1 | h1
    · by_cases hc : included.contains v
      · rw [if_pos hc] at h1
        rcases (keys_dictSet v _ acc x).mp h1 with h2 | h2
        · exact Or.inl h2
        · exact Or.inr (h2 ▸ List.mem_of_elem_eq_true hc)
      · rw [if_neg hc] at h1
        exact Or.inl h1
    · exact Or.inr h1

theorem bordaBallotTally_keys (included : List Candidate) (b : Ballot)
    (x : Candidate)
    (h : x ∈ (bordaBallotTally included b).items.map Prod.fst) :
    x ∈ included := by
  unfold bordaBallotTally at h
  rcases bordaFill_keys included b.votes 0 [] x h with h1 | h1
  · cases h1
  · exact h1

/-- A ranked round seeded with `included`, whose per-ballot tallies only
name included candidates, has all its result keys inside `included`; its
first group is inside `included` and duplicate-free. -/
theorem ranked_result_spec {included : List Candidate} {bt : Ballot → Tally}
    {ballots : List Ballot} {r : RoundResult}
    (h : RankedRound.result (some included) bt ballots = some r)
    (hbt : ∀ b x, x ∈ (bt b).items.map Prod.fst → x ∈ included) :
    (∀ p ∈ r.res, p.1 ∈ included) ∧ r.first.Nodup
      ∧ (∀ x ∈ r.first, x ∈ included) := by
  unfold RankedRound.result at h
  obtain ⟨_, hres, hfirst, _, _, _⟩ := make_eq_some h
  have hkeys : ∀ p ∈ r.res, p.1 ∈ included := by
    intro p hp
    have hitems : p ∈ (rankedLoop bt ballots (Tally.seedZeros included, 0)).1.items :=
      sortDesc_mem.mp (by rw [← hres]; exact hp)
    have hkey := List.mem_map_of_mem Prod.fst hitems
    rcases rankedLoop_keys bt ballots _ _ _ hkey with h1 | ⟨b, _, hx⟩
    · exact ((seedZeros_spec included).1.2 p.1).mp h1
    · exact hbt b p.1 hx
  have hnd : (r.res.map Prod.fst).Nodup := by
    rw [hres]
    have h1 : ((rankedLoop bt ballots (Tally.seedZeros included, 0)).1.items.map
        Prod.fst).Nodup :=
      rankedLoop_keysNodup bt ballots _ _ (seedZeros_spec included).1.1
    exact (List.Perm.nodup_iff
      ((sortDesc_perm _).map Prod.fst)).mpr h1
  refine ⟨hkeys, ?_, ?_⟩
  · rw [hfirst]
    exact firstGroup_nodup hnd
  · intro x hx
    obtain ⟨n, hn⟩ := result_first_keys h hx
    exact hkeys (x, n) hn

/-! ### The presidential round under the presiding contract -/

theorem foldl_add_lookup :
    ∀ (cs : List Candidate) (t : Tally) (x : Candidate),
    lookupCount (cs.foldl Tally.add_vote_to_candidate t).items x
      = lookupCount t.items x + (cs.count x : Int) := by
  intro cs
  induction cs with
  | nil => intro t x; simp
  | cons c cs ih =>
    intro t x
    rw [List.foldl_cons, ih]
    show lookupCount (dictIncr c 1 t.items) x + _ = _
    rw [lookupCount_dictIncr, List.count_cons]
    by_cases hx : x = c
    · subst hx
      simp only [if_pos rfl, beq_self_eq_true, if_true]
      push_cast
      ring
    · have hbeq : (c == x) = false := by
        simp only [beq_eq_false_iff_ne, ne_eq]
        exact fun h => hx h.symm
      simp only [if_neg hx, hbeq, Bool.false_eq_true, if_false]
      push_cast
      ring

theorem foldl_add_keys :
    ∀ (cs : List Candidate) (t : Tally) (x : Candidate),
    x ∈ (cs.foldl Tally.add_vote_to_candidate t).items.map Prod.fst
      ↔ (x ∈ t.items.map Prod.fst ∨ x ∈ cs) := by
  intro cs
  induction cs with
  | nil => intro t x; simp
  | cons c cs ih =>
    intro t x
    rw [List.foldl_cons, ih]
    show (x ∈ (dictIncr c 1 t.items).map Prod.fst ∨ _) ↔ _
    rw [keys_dictIncr]
    simp only [List.mem_cons]
    tauto

theorem foldl_add_keysNodup :
    ∀ (cs : List Candidate) (t : Tally),
    (t.items.map Prod.fst).Nodup →
    ((cs.foldl Tally.add_vote_to_candidate t).items.map Prod.fst).Nodup := by
  intro cs
  induction cs with
  | nil => intro t h; exact h
  | cons c cs ih =>
    intro t h
    rw [List.foldl_cons]
    exact ih _ (keysNodup_dictIncr c 1 h)

theorem length_filter_fst (p : Candidate → Bool) :
    ∀ (l : List (Candidate × Int)),
    (l.filter (fun x => p x.1)).length = ((l.map Prod.fst).filter p).length := by
  intro l
  induction l with
  | nil => rfl
  | cons q rest ih =>
    rcases h : p q.1 with _ | _
    · simp only [List.map_cons, List.filter_cons, h]
      simpa using ih
    · simp only [List.map_cons, List.filter_cons, h]
      simpa using ih

/-- When the presiding collaborator returns a non-empty duplicate-free
choice list drawn from a duplicate-free pool, the presidential round
constructs and its first group is exactly the choice set. -/
theorem presidential_exact {itf : Itf} {ballots : List Ballot}
    {incl : List Candidate} {maxw : Nat}
    (hnd_ch : (itf incl maxw).Nodup)
    (hne : itf incl maxw ≠ []) :
    ∃ r, PresidentialRound.result itf ballots incl maxw = some r
      ∧ r.first.length = (itf incl maxw).length
      ∧ (∀ c ∈ r.first, c ∈ itf incl maxw) := by
  set cs := itf incl maxw with hcs
  set t1 := cs.foldl Tally.add_vote_to_candidate (Tally.seedZeros incl) with ht1
  have hlook : ∀ x, lookupCount t1.items x = (cs.count x : Int) := by
    intro x
    rw [ht1, foldl_add_lookup, seedZeros_lookup]
    ring
  have hind : ∀ x, lookupCount t1.items x = if x ∈ cs then 1 else 0 := by
    intro x
    rw [hlook]
    by_cases hx : x ∈ cs
    · rw [if_pos hx, List.count_eq_one_of_mem hnd_ch hx]
      rfl
    · rw [if_neg hx, List.count_eq_zero_of_not_mem hx]
      rfl
  have hknd : (t1.items.map Prod.fst).Nodup :=
    foldl_add_keysNodup cs _ (seedZeros_spec incl).1.1
  have hkeys : ∀ x, x ∈ t1.items.map Prod.fst ↔ (x ∈ incl ∨ x ∈ cs) := by
    intro x
    rw [ht1, foldl_add_keys]
    constructor
    · intro h
      rcases h with h | h
      · exact Or.inl (((seedZeros_spec incl).1.2 x).mp h)
      · exact Or.inr h
    · intro h
      rcases h with h | h
      · exact Or.inl (((seedZeros_spec incl).1.2 x).mpr h)
      · exact Or.inr h
  have hentries : ∀ p ∈ t1.items, p.2 = if p.1 ∈ cs then 1 else 0 := by
    intro p hp
    rw [entry_eq_lookup hknd hp, hind]
  have hvne : ((cs.length : Int)) ≠ 0 := by
    have : 0 < cs.length := List.length_pos.mpr hne
    omega
  obtain ⟨r, hr⟩ : ∃ r, RoundResult.make (cs.length : Int) t1 = some r :=
    make_isSome (fun hcon => hvne hcon.1)
  obtain ⟨hv, hres, hfirst, _, _, _⟩ := make_eq_some hr
  obtain ⟨c0, hc0⟩ := List.exists_mem_of_ne_nil cs hne
  have hc0item : (c0, (1 : Int)) ∈ t1.items := by
    have hmem : c0 ∈ t1.items.map Prod.fst :=
      (hkeys c0).mpr (Or.inr hc0)
    have := lookup_entry_mem hmem
    rw [hind c0, if_pos hc0] at this
    exact this
  have hc0res : (c0, (1 : Int)) ∈ r.res := by
    rw [hres]
    exact sortDesc_mem.mpr hc0item
  rcases hrr : r.res with _ | ⟨r0, rest⟩
  · rw [hrr] at hc0res
    cases hc0res
  · have hr0items : r0 ∈ t1.items := by
      have : r0 ∈ r.res := by rw [hrr]; exact List.mem_cons_self _ _
      exact sortDesc_mem.mp (by rw [← hres]; exact this)
    have hr0le : r0.2 ≤ 1 := by
      rw [hentries r0 hr0items]
      by_cases h : r0.1 ∈ cs
      · rw [if_pos h]
      · rw [if_neg h]
        norm_num
    have hr0ge : (1 : Int) ≤ r0.2 := by
      have := @sortDesc_head_max t1.items r0 rest
        (by rw [← hres]; exact hrr) (c0, (1 : Int))
        (by rw [← hres]; exact hc0res)
      simpa using this
    have hr0 : r0.2 = 1 := le_antisymm hr0le hr0ge
    refine ⟨r, ?_, ?_, ?_⟩
    · show RoundResult.make (cs.length : Int) t1 = some r
      exact hr
    · rw [hfirst, hrr]
      simp only [firstGroup, List.length_map]
      rw [← hrr]
      have hfcongr : r.res.filter (fun x => x.2 == r0.2)
          = r.res.filter (fun x => decide (x.1 ∈ cs)) := by
        apply List.filter_congr
        intro p hp
        have hpt : p ∈ t1.items := sortDesc_mem.mp (by rw [← hres]; exact hp)
        rw [hentries p hpt, hr0]
        by_cases h : p.1 ∈ cs
        · simp [h]
        · simp [h]
      rw [hfcongr, length_filter_fst (fun x => decide (x ∈ cs)) r.res]
      have hresmapperm : (r.res.map Prod.fst).Perm (t1.items.map Prod.fst) := by
        rw [hres]
        exact (sortDesc_perm _).map Prod.fst
      rw [((hresmapperm.filter (fun x => decide (x ∈ cs)))).length_eq]
      have hpermcs : ((t1.items.map Prod.fst).filter
          (fun x => decide (x ∈ cs))).Perm cs := by
        apply (List.perm_ext_iff_of_nodup
          (List.Nodup.filter _ hknd) hnd_ch).mpr
        intro x
        rw [List.mem_filter]
        constructor
        · intro hx
          simpa using hx.2
        · intro hx
          exact ⟨(hkeys x).mpr (Or.inr hx), by simpa using hx⟩
      exact hpermcs.length_eq
    · intro c hc
      obtain ⟨n, hn⟩ := result_first_keys hr hc
      have hnt : (c, n) ∈ t1.items := sortDesc_mem.mp (by rw [← hres]; exact hn)
      have hn1 : n = if c ∈ cs then 1 else 0 := hentries (c, n) hnt
      have hcfil : (c, n) ∈ r.res.filter (fun x => x.2 == r0.2) := by
        have hcfirst : c ∈ firstGroup r.res := by rw [← hfirst]; exact hc
        rw [hrr] at hcfirst ⊢
        simp only [firstGroup, List.mem_map] at hcfirst
        obtain ⟨p, hp, hpc⟩ := hcfirst
        -- the entry named by first carries the top count; identify it with (c, n)
        have hpt : p ∈ t1.items :=
          sortDesc_mem.mp (by rw [← hres, hrr]; exact List.mem_of_mem_filter hp)
        have : p.1 = c := hpc
        -- keys are duplicate-free, so p = (c, n)
        have hpn : p = (c, n) := by
          have h1 := entry_eq_lookup hknd hpt
          have h2 := entry_eq_lookup hknd hnt
          have hp2 : p.2 = n := by
            rw [h1, hpc]
            exact h2.symm
          calc p = (p.1, p.2) := rfl
            _ = (c, n) := by rw [hpc, hp2]
        rw [← hpn]
        exact hp
      have := List.of_mem_filter hcfil
      have hn_eq : n = r0.2 := by simpa using this
      rw [hr0] at hn_eq
      rw [hn_eq] at hn1
      by_cases h : c ∈ cs
      · exact h
      · rw [if_neg h] at hn1
        cases hn1

theorem make_eq_none {votes : Int} {t : Tally} (h0 : votes = 0)
    (hne : t.items ≠ []) : RoundResult.make votes t = none := by
  unfold RoundResult.make
  rw [if_pos]
  refine ⟨h0, ?_⟩
  intro he
  apply hne
  have := sortDesc_length t.items
  rw [show Tally.to_ordered_list t = sortDesc t.items from rfl] at he
  rw [he] at this
  exact List.eq_nil_of_length_eq_zero this.symm

theorem seedZeros_ne_nil {incl : List Candidate} (h : incl ≠ []) :
    (Tally.seedZeros incl).items ≠ [] := by
  obtain ⟨c, hc⟩ := List.exists_mem_of_ne_nil incl h
  intro he
  have := ((seedZeros_spec incl).1.2 c).mpr hc
  rw [he] at this
  cases this

theorem presidential_res_keys {itf : Itf} {ballots : List Ballot}
    {incl : List Candidate} {maxw : Nat} {r : RoundResult}
    (h : PresidentialRound.result itf ballots incl maxw = some r) :
    ∀ p ∈ r.res, p.1 ∈ incl ∨ p.1 ∈ itf incl maxw := by
  unfold PresidentialRound.result at h
  obtain ⟨_, hres, _, _, _, _⟩ := make_eq_some h
  intro p hp
  have hitems : p ∈ ((itf incl maxw).foldl Tally.add_vote_to_candidate
      (Tally.seedZeros incl)).items := sortDesc_mem.mp (by rw [← hres]; exact hp)
  have hkey := List.mem_map_of_mem Prod.fst hitems
  rcases (foldl_add_keys _ _ _).mp hkey with h1 | h1
  · exact Or.inl (((seedZeros_spec incl).1.2 p.1).mp h1)
  · exact Or.inr h1

theorem presidential_nil_choice_nil_pool {itf : Itf} {ballots : List Ballot}
    {maxw : Nat} (hch : itf [] maxw = []) :
    ∃ r, PresidentialRound.result itf ballots [] maxw = some r
      ∧ r.first = [] := by
  unfold PresidentialRound.result
  rw [hch]
  exact ⟨⟨0, [], [], [], []⟩, rfl, rfl⟩

theorem presidential_nil_choice_ne_pool {itf : Itf} {ballots : List Ballot}
    {incl : List Candidate} {maxw : Nat} (hch : itf incl maxw = [])
    (hincl : incl ≠ []) :
    PresidentialRound.result itf ballots incl maxw = none := by
  unfold PresidentialRound.result
  rw [hch]
  simp only [List.foldl_nil, List.length_nil]
  exact make_eq_none rfl (seedZeros_ne_nil hincl)

theorem inclusive_result_spec {ballots : List Ballot} {incl : List Candidate}
    {r : RoundResult}
    (h : PreferentialInclusiveRound.result ballots incl = some r) :
    (∀ p ∈ r.res, p.1 ∈ incl) ∧ (∀ x ∈ r.first, x ∈ incl)
      ∧ (∀ x ∈ r.second, x ∈ incl) := by
  have hkeys := inclusive_res_keys h
  unfold PreferentialInclusiveRound.result at h
  refine ⟨hkeys, ?_, ?_⟩
  · intro x hx
    obtain ⟨n, hn⟩ := result_first_keys h hx
    exact hkeys (x, n) hn
  · intro x hx
    obtain ⟨n, hn⟩ := result_second_keys h hx
    exact hkeys (x, n) hn

/-- Everything the seat loop needs to know about a successful
persistent-tie cascade: all reported candidates come from the input set,
and, when the presidential fallback is enabled, the winner set respects
`max_winners`. -/
theorem persistent_spec {ballots : List Ballot} {itf : Itf}
    (hpre : Precond itf) {cands : List Candidate} {maxw : Nat} {pres : Bool}
    {pt : RoundResult}
    (h : Election.persistent_tie_rounds ballots itf cands maxw pres = some pt) :
    (∀ p ∈ pt.res, p.1 ∈ cands) ∧ (∀ x ∈ pt.first, x ∈ cands)
      ∧ (∀ x ∈ pt.second, x ∈ cands)
      ∧ (pres = true → 0 < maxw → pt.first.length ≤ maxw) := by
  rw [persistent_tie_eq] at h
  rcases hc : ConstantRankedRound.result ballots cands with _ | r1
  · rw [hc] at h
    cases h
  · rw [hc] at h
    simp only [Option.some_bind] at h
    have hc' : RankedRound.result (some cands) (constantBallotTally cands)
        ballots = some r1 := hc
    by_cases h1 : r1.first.length ≤ maxw
    · rw [if_pos h1] at h
      have hpt := (Option.some.injEq _ _).mp h
      subst hpt
      have hspec := ranked_result_spec hc'
        (fun b x hx => constantBallotTally_keys cands b x hx)
      refine ⟨hspec.1, hspec.2.2, ?_, fun _ _ => h1⟩
      intro x hx
      obtain ⟨n, hn⟩ := result_second_keys hc' hx
      exact hspec.1 (x, n) hn
    · rw [if_neg h1] at h
      rcases hb : BordaRankedRound.result ballots cands with _ | r2
      · rw [hb] at h
        cases h
      · rw [hb] at h
        simp only [Option.some_bind] at h
        have hb' : RankedRound.result (some cands) (bordaBallotTally cands)
            ballots = some r2 := hb
        have hspec2 := ranked_result_spec hb'
          (fun b x hx => bordaBallotTally_keys cands b x hx)
        by_cases h2 : r2.first.length ≤ maxw
        · rw [if_pos h2] at h
          have hpt := (Option.some.injEq _ _).mp h
          subst hpt
          refine ⟨hspec2.1, hspec2.2.2, ?_, fun _ _ => h2⟩
          intro x hx
          obtain ⟨n, hn⟩ := result_second_keys hb' hx
          exact hspec2.1 (x, n) hn
        · rw [if_neg h2] at h
          rcases hp : pres with _ | _
          · rw [hp] at h
            simp only [Bool.false_eq_true, if_false] at h
            have hpt := (Option.some.injEq _ _).mp h
            subst hpt
            refine ⟨hspec2.1, hspec2.2.2, ?_, ?_⟩
            · intro x hx
              obtain ⟨n, hn⟩ := result_second_keys hb' hx
              exact hspec2.1 (x, n) hn
            · intro hcon
              cases hcon
          · rw [hp] at h
            simp only [if_true] at h
            -- presidential round over the Borda first group
            obtain ⟨hchsub, hchnd, hchlen⟩ := hpre r2.first maxw
            have hfsub : ∀ x ∈ pt.first, x ∈ cands := by
              intro x hx
              obtain ⟨n, hn⟩ := result_first_keys (by
                unfold PresidentialRound.result at h
                exact h) hx
              rcases presidential_res_keys h (x, n) hn with h3 | h3
              · exact hspec2.2.2 x h3
              · exact hspec2.2.2 x (hchsub x h3)
            refine ⟨?_, hfsub, ?_, ?_⟩
            · intro p hp2
              rcases presidential_res_keys h p hp2 with h3 | h3
              · exact hspec2.2.2 p.1 h3
              · exact hspec2.2.2 p.1 (hchsub p.1 h3)
            · intro x hx
              obtain ⟨n, hn⟩ := result_second_keys (by
                unfold PresidentialRound.result at h
                exact h) hx
              rcases presidential_res_keys h (x, n) hn with h3 | h3
              · exact hspec2.2.2 x h3
              · exact hspec2.2.2 x (hchsub x h3)
            · intro _ hpos
              have hlen : (itf r2.first maxw).length = maxw :=
                hchlen hspec2.2.1 hpos (le_of_lt (by omega))
              have hne : itf r2.first maxw ≠ [] := by
                intro he
                rw [he] at hlen
                simp at hlen
                omega
              obtain ⟨r, hr, hrlen, _⟩ :=
                @presidential_exact itf ballots r2.first maxw hchnd hne
              rw [h] at hr
              have := (Option.some.injEq _ _).mp hr
              subst this
              rw [hrlen, hlen]

theorem tiebreakerLoop_spec {ballots : List Ballot} {itf : Itf}
    (hpre : Precond itf) :
    ∀ (fuel : Nat) (cands0 cands : List Candidate) (round : RoundResult)
    (maxw : Nat) (r : RoundResult),
    Election.tiebreakerLoop ballots itf fuel cands round maxw = some r →
    (∀ p ∈ round.res, p.1 ∈ cands0) →
    (∀ x ∈ round.first, x ∈ cands0) →
    (∀ x ∈ round.second, x ∈ cands0) →
    (∀ x ∈ cands, x ∈ cands0) →
    0 < maxw →
    (∀ p ∈ r.res, p.1 ∈ cands0) ∧ (∀ x ∈ r.first, x ∈ cands0)
      ∧ (∀ x ∈ r.second, x ∈ cands0) ∧ r.first.length ≤ maxw := by
  intro fuel
  induction fuel with
  | zero =>
    intro _ _ _ _ _ h
    cases h
  | succ fuel ih =>
    intro cands0 cands round maxw r h hres0 hfirst0 hsecond0 hsub hpos
    unfold Election.tiebreakerLoop at h
    by_cases h1 : round.first.length ≤ maxw
    · rw [if_pos h1] at h
      have := (Option.some.injEq _ _).mp h
      subst this
      exact ⟨hres0, hfirst0, hsecond0, h1⟩
    · rw [if_neg h1] at h
      by_cases h2 : (cands == round.first) = true
      · rw [if_pos h2] at h
        obtain ⟨hk, hf, hs, hlen⟩ := persistent_spec hpre h
        exact ⟨fun p hp => hsub p.1 (hk p hp), fun x hx => hsub x (hf x hx),
          fun x hx => hsub x (hs x hx), hlen rfl hpos⟩
      · rw [if_neg h2] at h
        have h3 : (PreferentialInclusiveRound.result ballots round.first).bind
            (fun rr => Election.tiebreakerLoop ballots itf fuel round.first
              rr maxw) = some r := h
        rcases hr' : PreferentialInclusiveRound.result ballots round.first
          with _ | r'
        · rw [hr'] at h3
          cases h3
        · rw [hr'] at h3
          simp only [Option.some_bind] at h3
          obtain ⟨hk', hf', hs'⟩ := inclusive_result_spec hr'
          exact ih cands0 round.first r' maxw r h3
            (fun p hp => hfirst0 p.1 (hk' p hp))
            (fun x hx => hfirst0 x (hf' x hx))
            (fun x hx => hfirst0 x (hs' x hx))
            hfirst0 hpos

theorem tiebreaker_spec {ballots : List Ballot} {itf : Itf}
    (hpre : Precond itf) {fuel : Nat} {cands : List Candidate} {maxw : Nat}
    {r : RoundResult}
    (h : Election.tiebreaker ballots itf fuel cands maxw = some r)
    (hpos : 0 < maxw) :
    (∀ p ∈ r.res, p.1 ∈ cands) ∧ (∀ x ∈ r.first, x ∈ cands)
      ∧ (∀ x ∈ r.second, x ∈ cands) ∧ r.first.length ≤ maxw := by
  unfold Election.tiebreaker at h
  by_cases hguard : cands.length ≤ maxw
  · rw [if_pos hguard] at h
    cases h
  · rw [if_neg hguard] at h
    have h3 : (PreferentialInclusiveRound.result ballots cands).bind
        (fun r0 => Election.tiebreakerLoop ballots itf fuel cands r0 maxw)
          = some r := h
    rcases hr0 : PreferentialInclusiveRound.result ballots cands with _ | r0
    · rw [hr0] at h3
      cases h3
    · rw [hr0] at h3
      simp only [Option.some_bind] at h3
      obtain ⟨hk0, hf0, hs0⟩ := inclusive_result_spec hr0
      exact tiebreakerLoop_spec hpre fuel cands cands r0 maxw r h3
        hk0 hf0 hs0 (fun x hx => hx) hpos

theorem pool_mem (candidates elected : List Candidate) (c : Candidate) :
    c ∈ Election.pool candidates elected ↔ (c ∈ candidates ∧ c ∉ elected) := by
  unfold Election.pool
  rw [List.mem_dedup, List.mem_filter]
  simp

theorem pool_nodup (candidates elected : List Candidate) :
    (Election.pool candidates elected).Nodup :=
  List.nodup_dedup _

/-- A successful second-round step appends exactly one finalist. -/
theorem secondRoundStep_spec {ballots : List Ballot} {itf : Itf}
    (hpre : Precond itf) {elected finalists e1 : List Candidate}
    (h : Election.secondRoundStep ballots itf elected finalists = some e1) :
    ∃ w, w ∈ finalists ∧ e1 = elected ++ [w] := by
  unfold Election.secondRoundStep at h
  have h' := h
  rcases hr : PreferentialInclusiveRound.result ballots finalists with _ | r
  · rw [hr] at h'
    cases h'
  · rw [hr] at h'
    simp only [Option.some_bind] at h'
    obtain ⟨_, hf, _⟩ := inclusive_result_spec hr
    by_cases hl : r.first.length > 1
    · rw [if_pos hl] at h'
      rcases hpt : Election.persistent_tie_rounds ballots itf r.first 1 true
        with _ | pt
      · rw [hpt] at h'
        cases h'
      · rw [hpt] at h'
        simp only [Option.some_bind] at h'
        obtain ⟨_, hptf, _, hptlen⟩ := persistent_spec hpre hpt
        by_cases hz : pt.first.length = 0
        · rw [if_pos hz] at h'
          cases h'
        · rw [if_neg hz] at h'
          have he1 := (Option.some.injEq _ _).mp h'
          have hone : pt.first.length = 1 := by
            have := hptlen rfl (by norm_num)
            omega
          obtain ⟨w, hw⟩ := List.length_eq_one.mp hone
          refine ⟨w, ?_, ?_⟩
          · exact hf w (hptf w (by rw [hw]; exact List.mem_singleton_self w))
          · rw [← he1, hw]
    · rw [if_neg hl] at h'
      simp only [Option.some_bind] at h'
      by_cases hz : r.first.length = 0
      · rw [if_pos hz] at h'
        cases h'
      · rw [if_neg hz] at h'
        have he1 := (Option.some.injEq _ _).mp h'
        have hone : r.first.length = 1 := by omega
        obtain ⟨w, hw⟩ := List.length_eq_one.mp hone
        refine ⟨w, ?_, ?_⟩
        · exact hf w (by rw [hw]; exact List.mem_singleton_self w)
        · rw [← he1, hw]

/-- A successful presidential fallback over the remaining pool appends
exactly one not-yet-elected candidate. -/
theorem poolPresidential_spec {itf : Itf} {ballots : List Ballot}
    {candidates elected e1 : List Candidate}
    (hpre : Precond itf)
    (h : (PresidentialRound.result itf ballots
        (Election.pool candidates elected) 1).bind (fun round =>
          if round.first.length = 0 then none
          else some (elected ++ round.first)) = some e1) :
    ∃ w, w ∉ elected ∧ w ∈ candidates ∧ e1 = elected ++ [w] := by
  by_cases hpool : Election.pool candidates elected = []
  · have hch : itf (Election.pool candidates elected) 1 = [] := by
      have hsub := (hpre (Election.pool candidates elected) 1).1
      rcases hcc : itf (Election.pool candidates elected) 1 with _ | ⟨c, cs⟩
      · rfl
      · exfalso
        have := hsub c (by rw [hcc]; exact List.mem_cons_self _ _)
        rw [hpool] at this
        cases this
    rw [hpool] at hch
    obtain ⟨r, hr, hrf⟩ := @presidential_nil_choice_nil_pool itf ballots 1 hch
    rw [hpool, hr] at h
    simp only [Option.some_bind] at h
    rw [if_pos (by rw [hrf]; rfl)] at h
    cases h
  · by_cases hch : itf (Election.pool candidates elected) 1 = []
    · rw [presidential_nil_choice_ne_pool hch hpool] at h
      cases h
    · obtain ⟨hsub, hnd_ch, hlen⟩ := hpre (Election.pool candidates elected) 1
      have hlen1 : (itf (Election.pool candidates elected) 1).length = 1 := by
        apply hlen (pool_nodup _ _) (by norm_num)
        have : 0 < (Election.pool candidates elected).length :=
          List.length_pos.mpr hpool
        omega
      obtain ⟨r, hr, hrlen, hrsub⟩ := @presidential_exact itf ballots
        (Election.pool candidates elected) 1 hnd_ch hch
      rw [hr] at h
      simp only [Option.some_bind] at h
      rw [if_neg (by rw [hrlen, hlen1]; norm_num)] at h
      have he1 := (Option.some.injEq _ _).mp h
      have hone : r.first.length = 1 := by rw [hrlen, hlen1]
      obtain ⟨w, hw⟩ := List.length_eq_one.mp hone
      have hwp : w ∈ Election.pool candidates elected :=
        hsub w (hrsub w (by rw [hw]; exact List.mem_singleton_self w))
      rw [pool_mem] at hwp
      exact ⟨w, hwp.2, hwp.1, by rw [← he1, hw]⟩

theorem optTiebreak_first {ballots : List Ballot} {itf : Itf} {fuel : Nat}
    (hpre : Precond itf) {r0 r1 : RoundResult} {P : Candidate → Prop}
    (h : (if r0.first.length > 1 then
        Election.tiebreaker ballots itf fuel r0.first 1
      else some r0) = some r1)
    (hfirst : ∀ x ∈ r0.first, P x) : ∀ x ∈ r1.first, P x := by
  by_cases hc : r0.first.length > 1
  · rw [if_pos hc] at h
    obtain ⟨_, hf, _, _⟩ := tiebreaker_spec hpre h (by norm_num)
    exact fun x hx => hfirst x (hf x hx)
  · rw [if_neg hc] at h
    have := (Option.some.injEq _ _).mp h
    subst this
    exact hfirst

theorem secondRoundStep_not_elected {ballots : List Ballot} {itf : Itf}
    (hpre : Precond itf) {elected finalists e1 : List Candidate}
    (h : Election.secondRoundStep ballots itf elected finalists = some e1)
    (hdisj : ∀ c ∈ finalists, c ∉ elected) :
    ∃ w, w ∉ elected ∧ e1 = elected ++ [w] := by
  obtain ⟨w, hwf, he⟩ := secondRoundStep_spec hpre h
  exact ⟨w, hdisj w hwf, he⟩

/-- A successful seat iteration appends exactly one not-yet-elected
candidate to `elected`. -/
theorem seatBody_spec {ballots : List Ballot} {candidates : List Candidate}
    {itf : Itf} {fuel : Nat} {elected : List Candidate}
    {first_round : RoundResult} {e1 : List Candidate}
    (hpre : Precond itf)
    (hfr : PreferentialExclusiveRound.result ballots elected = some first_round)
    (h : Election.seatBody ballots candidates itf fuel elected first_round
      = some e1) :
    ∃ w, w ∉ elected ∧ e1 = elected ++ [w] := by
  obtain ⟨hxf, hoh1⟩ := exclusive_first_spec hfr
  have hres0 : ∀ p ∈ first_round.res, p.1 ∉ elected := exclusive_res_keys hfr
  have hsec0 : ∀ x ∈ first_round.second, x ∉ elected := by
    intro x hx
    obtain ⟨n, hn⟩ := result_second_keys (by
      unfold PreferentialExclusiveRound.result at hfr
      exact hfr) hx
    exact hres0 (x, n) hn
  unfold Election.seatBody at h
  by_cases hw0 : first_round.first.length = 0
  · rw [if_pos hw0] at h
    obtain ⟨w, hw1, _, hw3⟩ := poolPresidential_spec hpre h
    exact ⟨w, hw1, hw3⟩
  · rw [if_neg hw0] at h
    by_cases hoh : first_round.over_half 1 = true
    · rw [if_pos hoh] at h
      have he1 := (Option.some.injEq _ _).mp h
      obtain ⟨w, hw⟩ := List.length_eq_one.mp (hoh1 hoh)
      refine ⟨w, hxf w (by rw [hw]; exact List.mem_singleton_self w), ?_⟩
      rw [← he1, hw]
    · rw [if_neg hoh] at h
      -- step 4.1 produces the working (round, winners) pair
      have hstep : ∃ rw0 : RoundResult × List Candidate,
          (if first_round.first.length > 2 then
              (Election.tiebreaker ballots itf fuel first_round.first 2).map
                (fun r => (r, r.first))
            else some (first_round, first_round.first)) = some rw0
          ∧ (∀ x ∈ rw0.2, x ∉ elected)
          ∧ (∀ p ∈ rw0.1.res, p.1 ∉ elected)
          ∧ (∀ x ∈ rw0.1.second, x ∉ elected) := by
        by_cases hgt2 : first_round.first.length > 2
        · rw [if_pos hgt2]
          rcases htb : Election.tiebreaker ballots itf fuel
            first_round.first 2 with _ | tb
          · exfalso
            rw [if_pos hgt2, htb] at h
            simp only [Option.map_none', Option.none_bind] at h
            cases h
          · obtain ⟨htk, htf, hts, _⟩ := tiebreaker_spec hpre htb (by norm_num)
            refine ⟨(tb, tb.first), by rw [Option.map_some'], ?_, ?_, ?_⟩
            · exact fun x hx => hxf x (htf x hx)
            · exact fun p hp => hxf p.1 (htk p hp)
            · exact fun x hx => hxf x (hts x hx)
        · rw [if_neg hgt2]
          exact ⟨(first_round, first_round.first), rfl, hxf, hres0, hsec0⟩
      obtain ⟨rw0, hrw, hW, hRres, hRsec⟩ := hstep
      rw [hrw] at h
      simp only [Option.some_bind] at h
      by_cases h1w : rw0.2.length = 1
      · rw [if_pos h1w] at h
        by_cases hoh2 : first_round.over_half 2 = true
        · rw [if_pos hoh2] at h
          by_cases hsl : rw0.1.second.length > 1
          · rw [if_pos hsl] at h
            rcases htb2 : Election.tiebreaker ballots itf fuel
              rw0.1.second 1 with _ | tb2
            · rw [htb2] at h
              cases h
            · rw [htb2] at h
              simp only [Option.some_bind] at h
              obtain ⟨_, htf2, _, _⟩ := tiebreaker_spec hpre htb2 (by norm_num)
              refine secondRoundStep_not_elected hpre h ?_
              intro c hc
              rcases List.mem_append.mp hc with hc | hc
              · exact hW c hc
              · exact hRsec c (htf2 c hc)
          · rw [if_neg hsl] at h
            by_cases hz : rw0.1.second.length = 0
            · rw [if_pos hz] at h
              cases h
            · rw [if_neg hz] at h
              refine secondRoundStep_not_elected hpre h ?_
              intro c hc
              rcases List.mem_append.mp hc with hc | hc
              · exact hW c hc
              · exact hRsec c hc
        · rw [if_neg hoh2] at h
          rcases hx1 : PreferentialExclusiveRound.result ballots
            (elected ++ rw0.2) with _ | rr
          · rw [hx1] at h
            cases h
          · rw [hx1] at h
            simp only [Option.some_bind] at h
            have hrrf : ∀ x ∈ rr.first, x ∉ elected ++ rw0.2 :=
              (exclusive_first_spec hx1).1
            rcases hot : (if rr.first.length > 1 then
                Election.tiebreaker ballots itf fuel rr.first 1
              else some rr) with _ | rr2
            · rw [hot] at h
              cases h
            · rw [hot] at h
              simp only [Option.some_bind] at h
              have hrr2f : ∀ x ∈ rr2.first, x ∉ elected ++ rw0.2 :=
                optTiebreak_first hpre hot hrrf
              refine secondRoundStep_not_elected hpre h ?_
              intro c hc
              rcases List.mem_append.mp hc with hc | hc
              · exact hW c hc
              · intro hce
                exact hrr2f c hc (List.mem_append.mpr (Or.inl hce))
      · rw [if_neg h1w] at h
        by_cases hlt2 : rw0.2.length < 2
        · rw [if_pos hlt2] at h
          cases h
        · rw [if_neg hlt2] at h
          by_cases hoh2 : first_round.over_half 2 = true
          · rw [if_pos hoh2] at h
            exact secondRoundStep_not_elected hpre h hW
          · rw [if_neg hoh2] at h
            by_cases hoh3 : first_round.over_half 3 = true
            · rw [show (!(first_round.over_half 3)) = false by
                rw [hoh3]; rfl] at h
              simp only [Bool.false_eq_true, if_false] at h
              -- 4.3.e: third contender, special round, then fallbacks
              rcases hx1 : PreferentialExclusiveRound.result ballots
                (elected ++ rw0.2) with _ | rr
              · rw [hx1] at h
                cases h
              · rw [hx1] at h
                simp only [Option.some_bind] at h
                have hrrf : ∀ x ∈ rr.first, x ∉ elected ++ rw0.2 :=
                  (exclusive_first_spec hx1).1
                rcases hot : (if rr.first.length > 1 then
                    Election.tiebreaker ballots itf fuel rr.first 1
                  else some rr) with _ | rr2
                · rw [hot] at h
                  cases h
                · rw [hot] at h
                  simp only [Option.some_bind] at h
                  have hrr2f : ∀ x ∈ rr2.first, x ∉ elected ++ rw0.2 :=
                    optTiebreak_first hpre hot hrrf
                  have hfin : ∀ c ∈ rw0.2 ++ rr2.first, c ∉ elected := by
                    intro c hc
                    rcases List.mem_append.mp hc with hc | hc
                    · exact hW c hc
                    · intro hce
                      exact hrr2f c hc (List.mem_append.mpr (Or.inl hce))
                  rcases hsp : PreferentialInclusiveRound.result ballots
                    (rw0.2 ++ rr2.first) with _ | sp
                  · rw [hsp] at h
                    cases h
                  · rw [hsp] at h
                    simp only [Option.some_bind] at h
                    obtain ⟨_, hspf, _⟩ := inclusive_result_spec hsp
                    by_cases hsp1 : sp.first.length = 1
                    · rw [if_pos hsp1] at h
                      have he1 := (Option.some.injEq _ _).mp h
                      obtain ⟨w, hw⟩ := List.length_eq_one.mp hsp1
                      refine ⟨w, ?_, by rw [← he1, hw]⟩
                      exact hfin w (hspf w (by
                        rw [hw]; exact List.mem_singleton_self w))
                    · rw [if_neg hsp1] at h
                      rcases hpt : Election.persistent_tie_rounds ballots itf
                        sp.first 1 false with _ | pt
                      · rw [hpt] at h
                        cases h
                      · rw [hpt] at h
                        simp only [Option.some_bind] at h
                        obtain ⟨_, hptf, _, _⟩ := persistent_spec hpre hpt
                        by_cases hpt1 : pt.first.length = 1
                        · rw [if_pos hpt1] at h
                          have he1 := (Option.some.injEq _ _).mp h
                          obtain ⟨w, hw⟩ := List.length_eq_one.mp hpt1
                          refine ⟨w, ?_, by rw [← he1, hw]⟩
                          exact hfin w (hspf w (hptf w (by
                            rw [hw]; exact List.mem_singleton_self w)))
                        · rw [if_neg hpt1] at h
                          exact secondRoundStep_not_elected hpre h hW
            · rw [show (!(first_round.over_half 3)) = true by
                rw [show first_round.over_half 3 = false by
                  rcases hb3 : first_round.over_half 3 with _ | _
                  · rfl
                  · exact absurd hb3 hoh3]; rfl] at h
              simp only [if_true] at h
              -- 4.3.d: two intermediate rounds
              rcases hi1 : PreferentialInclusiveRound.result ballots rw0.2
                with _ | ra
              · rw [hi1] at h
                cases h
              · rw [hi1] at h
                simp only [Option.some_bind] at h
                obtain ⟨_, hraf, _⟩ := inclusive_result_spec hi1
                rcases hot : (if ra.first.length > 1 then
                    Election.tiebreaker ballots itf fuel ra.first 1
                  else some ra) with _ | ra2
                · rw [hot] at h
                  cases h
                · rw [hot] at h
                  simp only [Option.some_bind] at h
                  have hra2f : ∀ x ∈ ra2.first, x ∈ rw0.2 :=
                    optTiebreak_first hpre hot hraf
                  rcases hx2 : PreferentialExclusiveRound.result ballots
                    (elected ++ ra2.first) with _ | rb
                  · rw [hx2] at h
                    cases h
                  · rw [hx2] at h
                    simp only [Option.some_bind] at h
                    have hrbf : ∀ x ∈ rb.first, x ∉ elected ++ ra2.first :=
                      (exclusive_first_spec hx2).1
                    rcases hot2 : (if rb.first.length > 1 then
                        Election.tiebreaker ballots itf fuel rb.first 1
                      else some rb) with _ | rb2
                    · rw [hot2] at h
                      cases h
                    · rw [hot2] at h
                      simp only [Option.some_bind] at h
                      have hrb2f : ∀ x ∈ rb2.first, x ∉ elected ++ ra2.first :=
                        optTiebreak_first hpre hot2 hrbf
                      refine secondRoundStep_not_elected hpre h ?_
                      intro c hc
                      rcases List.mem_append.mp hc with hc | hc
                      · exact hW c (hra2f c hc)
                      · intro hce
                        exact hrb2f c hc (List.mem_append.mpr (Or.inl hce))

theorem takeItf_precond : Precond takeItf := by
  intro incl k
  refine ⟨?_, ?_, ?_⟩
  · intro c hc
    exact List.mem_dedup.mp (List.take_subset _ _ hc)
  · exact List.Nodup.sublist (List.take_sublist _ _) (List.nodup_dedup incl)
  · intro hnd hk hlen
    show (incl.dedup.take k).length = k
    rw [List.Nodup.dedup hnd, List.length_take]
    omega

/-- C2 — under the presiding contract, every successful seat iteration
appends exactly one not-yet-elected candidate to `elected` (never removing
or reordering entries and never repeating a candidate), the round-1
exclusive round of a seat takes the current `elected` list as its exclusion
set, and a successful run over `n` seats extends `elected` by exactly `n`
fresh candidates, preserving duplicate-freedom. -/
theorem C2_run_invariants (ballots : List Ballot) (candidates : List Candidate)
    (itf : Itf) (fuel : Nat) (hpre : Precond itf) :
    (∀ elected e1,
      Election.runSeat ballots candidates itf fuel elected = some e1 →
      ∃ w, w ∉ elected ∧ e1 = elected ++ [w])
    ∧ (∀ elected, Election.runSeat ballots candidates itf fuel elected
        = (PreferentialExclusiveRound.result ballots elected).bind
            (Election.seatBody ballots candidates itf fuel elected))
    ∧ (∀ n elected efin,
        Election.runSeats ballots candidates itf fuel n elected = some efin →
        ∃ ws, efin = elected ++ ws ∧ ws.length = n
          ∧ (elected.Nodup → efin.Nodup)) := by
  have hseat : ∀ elected e1,
      Election.runSeat ballots candidates itf fuel elected = some e1 →
      ∃ w, w ∉ elected ∧ e1 = elected ++ [w] := by
    intro elected e1 h
    unfold Election.runSeat at h
    rcases hfr : PreferentialExclusiveRound.result ballots elected with _ | fr
    · rw [hfr] at h
      cases h
    · rw [hfr] at h
      simp only [Option.some_bind] at h
      exact seatBody_spec hpre hfr h
  refine ⟨hseat, fun _ => rfl, ?_⟩
  intro n
  induction n with
  | zero =>
    intro elected efin h
    have := (Option.some.injEq _ _).mp h
    subst this
    exact ⟨[], by simp, rfl, fun hd => hd⟩
  | succ n ih =>
    intro elected efin h
    unfold Election.runSeats at h
    rcases hs : Election.runSeat ballots candidates itf fuel elected
      with _ | e1
    · rw [hs] at h
      cases h
    · rw [hs] at h
      simp only [Option.some_bind] at h
      obtain ⟨w, hw, he1⟩ := hseat elected e1 hs
      obtain ⟨ws, hws, hlen, hnd⟩ := ih e1 efin h
      refine ⟨w :: ws, ?_, by simp [hlen], ?_⟩
      · rw [hws, he1]
        simp
      · intro hnde
        apply hnd
        rw [he1, List.nodup_append]
        refine ⟨hnde, List.nodup_singleton w, ?_⟩
        intro a ha hain
        rw [List.mem_singleton] at hain
        subst hain
        exact hw ha

/-- Witness for C2: with no ballots, one candidate, and the canonical
presiding collaborator, the seat is filled by the presidential fallback and
the single candidate is appended. -/
theorem C2_witness :
    Precond takeItf
      ∧ (∃ w, w ∉ ([] : List Candidate) ∧ [(0 : Candidate)] = [] ++ [w]) :=
  ⟨takeItf_precond,
    (C2_run_invariants [] [0] takeItf 1 takeItf_precond).1 [] [0] (by decide)⟩

/-- C3 — when the round-1 exclusive round reports no leader at all, the
seat iteration is exactly a presidential round over the full candidate list
minus the already-elected candidates (requesting one winner), whose winner
is appended to `elected`; no second round is consulted. -/
theorem C3_empty_first_round (ballots : List Ballot)
    (candidates : List Candidate) (itf : Itf) (fuel : Nat)
    (elected : List Candidate) (r1 : RoundResult)
    (hpre : Precond itf)
    (h1 : PreferentialExclusiveRound.result ballots elected = some r1)
    (hempty : r1.first = []) :
    Election.runSeat ballots candidates itf fuel elected
      = (PresidentialRound.result itf ballots
          (Election.pool candidates elected) 1).bind (fun r =>
            if r.first.length = 0 then none else some (elected ++ r.first))
    ∧ (∀ c, c ∈ Election.pool candidates elected
        ↔ (c ∈ candidates ∧ c ∉ elected))
    ∧ (∀ e1, Election.runSeat ballots candidates itf fuel elected = some e1 →
        ∃ w, w ∉ elected ∧ w ∈ candidates ∧ e1 = elected ++ [w]) := by
  have heq : Election.runSeat ballots candidates itf fuel elected
      = (PresidentialRound.result itf ballots
          (Election.pool candidates elected) 1).bind (fun r =>
            if r.first.length = 0 then none else some (elected ++ r.first)) := by
    unfold Election.runSeat
    rw [h1]
    simp only [Option.some_bind]
    unfold Election.seatBody
    rw [hempty]
    simp
  refine ⟨heq, fun c => pool_mem candidates elected c, ?_⟩
  intro e1 he
  rw [heq] at he
  exact poolPresidential_spec hpre he

/-- Witness for C3 at a concrete configuration: no ballots, one candidate,
nobody elected yet — the pool is exactly that candidate. -/
theorem C3_witness :
    (0 : Candidate) ∈ Election.pool [0] []
      ↔ ((0 : Candidate) ∈ [(0 : Candidate)]
          ∧ (0 : Candidate) ∉ ([] : List Candidate)) :=
  (C3_empty_first_round [] [0] takeItf 1 [] ⟨0, [], [], [], []⟩
    takeItf_precond (by decide) rfl).2.1 0
